import Mathlib

/-!
Verification of the Kafka AI agent backend (src/backend/main.py).

The development shallowly embeds the pipeline of the single endpoint
`kafka_agent`:
  ask_openai_for_code (fence stripping + `json.loads`)
  → run_code_safely (sandbox executor)
  → extract_topic_from_code (regex topic extraction)
  → the global `last_topic` memory slot.

Python strings are modelled as `String`/`List Char`; `json.loads` is
modelled by a fueled recursive-descent parser over the strict JSON grammar
used by Python's `json` module (numbers are kept as their lexemes, since
the program never computes with them; `\uXXXX` escapes are decoded with
`Char.ofNat` and surrogate-pair combination is not modelled — no claim
depends on it).  The `exec` of untrusted code is abstracted by a semantics
function `String → ExecBehavior` distinguishing normal termination,
raising an `Exception`, and raising a `BaseException` that is not an
`Exception` (e.g. `SystemExit`), since `except Exception` catches only the
former.
-/

/-- Characters stripped by Python's `str.strip()` and matched by `re`'s `\s`
(the ASCII whitespace set; the rare non-ASCII Unicode whitespace characters
are not modelled). -/
def isPySpace (c : Char) : Bool :=
  decide (c = ' ' ∨ c = '\t' ∨ c = '\n' ∨ c = '\r' ∨ c = '\x0b' ∨ c = '\x0c')

/-- Characters skipped between JSON tokens by Python's `json.loads`
(exactly space, tab, newline, carriage return). -/
def isJWs (c : Char) : Bool :=
  decide (c = ' ' ∨ c = '\t' ∨ c = '\n' ∨ c = '\r')

/-- Skip inter-token whitespace, as `json.decoder.WHITESPACE.match` does. -/
def skipWs (cs : List Char) : List Char := cs.dropWhile isJWs

/-- Python `str.strip()` on a character list: drop `isPySpace` characters
from both ends. -/
def pyStripL (cs : List Char) : List Char :=
  ((cs.dropWhile isPySpace).reverse.dropWhile isPySpace).reverse

/-- Python `str.strip()` on a `String`. -/
def pyStripS (s : String) : String := String.mk (pyStripL s.data)

/-- The backtick character (used by the fence-stripping logic). -/
def btick : Char := Char.ofNat 96

/-- The single-quote character (used by the topic-extraction regex). -/
def squote : Char := Char.ofNat 39

/-- JSON values as produced by `json.loads`.  Numbers are represented by
their source lexeme; objects keep their key/value pairs in source order. -/
inductive Json where
  | null : Json
  | bool (b : Bool) : Json
  | num (lexeme : String) : Json
  | str (s : String) : Json
  | arr (elems : List Json) : Json
  | obj (kvs : List (String × Json)) : Json

/-- Match a literal sequence of characters at the head of the input,
returning the rest on success (models Python's prefix checks such as
`s[idx:idx + 4] == 'null'`). -/
def expectLit : List Char → List Char → Option (List Char)
  | [], cs => some cs
  | _ :: _, [] => none
  | p :: ps, c :: cs => if c = p then expectLit ps cs else none

/-- Value of a hexadecimal digit, used for `\uXXXX` escapes. -/
def hexVal (c : Char) : Option Nat :=
  if c.isDigit then some (c.toNat - 48)
  else if 'a' ≤ c ∧ c ≤ 'f' then some (c.toNat - 87)
  else if 'A' ≤ c ∧ c ≤ 'F' then some (c.toNat - 55)
  else none

/-- Translation of the single-character string escapes accepted by
`json.loads` (`BACKSLASH` table in `json/decoder.py`). -/
def escChar (c : Char) : Option Char :=
  if c = '"' then some '"'
  else if c = '\\' then some '\\'
  else if c = '/' then some '/'
  else if c = 'b' then some (Char.ofNat 8)
  else if c = 'f' then some (Char.ofNat 12)
  else if c = 'n' then some '\n'
  else if c = 'r' then some '\r'
  else if c = 't' then some '\t'
  else none

/-- Read four hexadecimal digits (the `XXXX` of a `\uXXXX` escape). -/
def hex4 : List Char → Option (Nat × List Char)
  | a :: b :: c :: d :: rest =>
    match hexVal a, hexVal b, hexVal c, hexVal d with
    | some ha, some hb, some hc, some hd =>
      some ((((ha * 16 + hb) * 16 + hc) * 16 + hd), rest)
    | _, _, _, _ => none
  | _ => none

/-- Fractional part of a JSON number: the optional regex group `(\.\d+)?`.
Returns the consumed lexeme characters and the rest. -/
def numFrac (r : List Char) : List Char × List Char :=
  match r with
  | [] => ([], [])
  | c :: r2 =>
    if c = '.' then
      let ds := r2.takeWhile Char.isDigit
      if ds = [] then ([], c :: r2) else (c :: ds, r2.dropWhile Char.isDigit)
    else ([], c :: r2)

/-- Exponent part of a JSON number: the optional regex group
`([eE][-+]?\d+)?`. -/
def numExp (r : List Char) : List Char × List Char :=
  match r with
  | [] => ([], [])
  | e :: r2 =>
    if e = 'e' ∨ e = 'E' then
      let sg : List Char × List Char :=
        match r2 with
        | [] => ([], [])
        | s :: r3 => if s = '+' ∨ s = '-' then ([s], r3) else ([], s :: r3)
      let ds := sg.2.takeWhile Char.isDigit
      if ds = [] then ([], e :: r2)
      else (e :: (sg.1 ++ ds), sg.2.dropWhile Char.isDigit)
    else ([], e :: r2)

/-- Scan a JSON number at the head of the input, following the regex
`(-?(?:0|[1-9]\d*))(\.\d+)?([eE][-+]?\d+)?` used by `json.scanner`.
Returns the matched lexeme and the rest of the input. -/
def pNumber (cs : List Char) : Option (List Char × List Char) :=
  let sgn : List Char × List Char :=
    match cs with
    | [] => ([], [])
    | c :: r => if c = '-' then ([c], r) else ([], c :: r)
  match sgn.2 with
  | [] => none
  | c :: r =>
    if ¬ c.isDigit then none
    else
      let ip : List Char × List Char :=
        if c = '0' then (['0'], r)
        else (c :: r.takeWhile Char.isDigit, r.dropWhile Char.isDigit)
      let fr := numFrac ip.2
      let ex := numExp fr.2
      some (sgn.1 ++ ip.1 ++ fr.1 ++ ex.1, ex.2)

/-- Scan the body of a JSON string (input starts after the opening quote),
returning the decoded characters and the rest after the closing quote.
Mirrors `json/decoder.py:py_scanstring` in strict mode: raw control
characters below 0x20 are rejected, escapes are decoded.  Fuel decreases
once per consumed character, so any fuel exceeding the input length is
enough. -/
def pStr : Nat → List Char → Option (List Char × List Char)
  | 0, _ => none
  | f + 1, cs =>
    match cs with
    | [] => none
    | c :: rest =>
      if c = '"' then some ([], rest)
      else if c = '\\' then
        match rest with
        | [] => none
        | e :: rest2 =>
          if e = 'u' then
            match hex4 rest2 with
            | some (n, rest3) =>
              (pStr f rest3).map (fun p => (Char.ofNat n :: p.1, p.2))
            | none => none
          else
            match escChar e with
            | some ec => (pStr f rest2).map (fun p => (ec :: p.1, p.2))
            | none => none
      else if c.toNat < 32 then none
      else (pStr f rest).map (fun p => (c :: p.1, p.2))

/-- Scan one JSON value at the head of the input (leading whitespace already
skipped), mirroring `json/scanner.py:py_make_scanner.scan_once`: strings,
objects, arrays, `null`/`true`/`false`, numbers, and the Python extensions
`NaN`/`Infinity`/`-Infinity`.  Object and array tails are parsed by
re-entering the function on the rest prefixed with the opening bracket,
which matches the loop in the Python decoder (trailing commas rejected,
property names required after a comma). -/
def pValue : Nat → List Char → Option (Json × List Char)
  | 0, _ => none
  | f + 1, cs =>
    match cs with
    | [] => none
    | c :: rest =>
      if c = '"' then
        (pStr f rest).map (fun p => (Json.str (String.mk p.1), p.2))
      else if c = '{' then
        match skipWs rest with
        | [] => none
        | c2 :: r2 =>
          if c2 = '}' then some (Json.obj [], r2)
          else if c2 = '"' then
            match pStr f r2 with
            | none => none
            | some (key, r3) =>
              match skipWs r3 with
              | [] => none
              | c3 :: r4 =>
                if c3 = ':' then
                  match pValue f (skipWs r4) with
                  | none => none
                  | some (v, r5) =>
                    match skipWs r5 with
                    | [] => none
                    | c4 :: r6 =>
                      if c4 = ',' then
                        match skipWs r6 with
                        | [] => none
                        | c5 :: r7 =>
                          if c5 = '"' then
                            match pValue f ('{' :: c5 :: r7) with
                            | some (Json.obj ms, r8) =>
                              some (Json.obj ((String.mk key, v) :: ms), r8)
                            | _ => none
                          else none
                      else if c4 = '}' then
                        some (Json.obj [(String.mk key, v)], r6)
                      else none
                else none
          else none
      else if c = '[' then
        match skipWs rest with
        | [] => none
        | c2 :: r2 =>
          if c2 = ']' then some (Json.arr [], r2)
          else
            match pValue f (c2 :: r2) with
            | none => none
            | some (v, r3) =>
              match skipWs r3 with
              | [] => none
              | c3 :: r4 =>
                if c3 = ',' then
                  match skipWs r4 with
                  | [] => none
                  | c4 :: r5 =>
                    if c4 = ']' then none
                    else
                      match pValue f ('[' :: c4 :: r5) with
                      | some (Json.arr vs, r6) => some (Json.arr (v :: vs), r6)
                      | _ => none
                else if c3 = ']' then some (Json.arr [v], r4)
                else none
      else if c = 't' then
        (expectLit ['r', 'u', 'e'] rest).map (fun r => (Json.bool true, r))
      else if c = 'f' then
        (expectLit ['a', 'l', 's', 'e'] rest).map (fun r => (Json.bool false, r))
      else if c = 'n' then
        (expectLit ['u', 'l', 'l'] rest).map (fun r => (Json.null, r))
      else if c = 'N' then
        (expectLit ['a', 'N'] rest).map (fun r => (Json.num ("NaN"), r))
      else if c = 'I' then
        (expectLit ['n', 'f', 'i', 'n', 'i', 't', 'y'] rest).map
          (fun r => (Json.num ("Infinity"), r))
      else if c = '-' then
        match pNumber (c :: rest) with
        | some (lex, r) => some (Json.num (String.mk lex), r)
        | none =>
          (expectLit ['I', 'n', 'f', 'i', 'n', 'i', 't', 'y'] rest).map
            (fun r => (Json.num ("-Infinity"), r))
      else if c.isDigit then
        (pNumber (c :: rest)).map (fun p => (Json.num (String.mk p.1), p.2))
      else none

/-- Model of `json.loads`: skip leading whitespace, scan one value, require
only whitespace to remain (otherwise Python raises `Extra data`).  `none`
models a raised `json.JSONDecodeError`. -/
def parseJson (s : String) : Option Json :=
  match pValue (s.data.length + 1) (skipWs s.data) with
  | some (j, rest) => if skipWs rest = [] then some j else none
  | none => none

/-- True when the text begins with a triple-backtick fence, modelling
`raw.startswith("```")` (main.py line 102). -/
def startsFence : List Char → Bool
  | a :: b :: c :: _ => decide (a = btick ∧ b = btick ∧ c = btick)
  | _ => false

/-- Drop every backtick from both ends, modelling `raw.strip("`")`
(main.py line 103). -/
def stripBt (cs : List Char) : List Char :=
  ((cs.dropWhile (fun c => decide (c = btick))).reverse.dropWhile
    (fun c => decide (c = btick))).reverse

/-- True when the lower-cased text begins with `json`, modelling
`raw.lower().startswith("json")` (main.py line 104). -/
def lowerJsonTag : List Char → Bool
  | a :: b :: c :: d :: _ =>
    decide (a.toLower = 'j' ∧ b.toLower = 's' ∧ c.toLower = 'o' ∧ d.toLower = 'n')
  | _ => false

/-- True when the text ends with a triple-backtick fence, modelling
`raw.endswith("```")` (main.py line 106). -/
def endsFence (cs : List Char) : Bool :=
  match cs.reverse with
  | a :: b :: c :: _ => decide (a = btick ∧ b = btick ∧ c = btick)
  | _ => false

/-- Drop the last `n` characters, modelling `raw[:-3]` for `n = 3`. -/
def dropR (n : Nat) (cs : List Char) : List Char := (cs.reverse.drop n).reverse

/-- Fence-stripping clean-up applied to the completion text before JSON
decoding (main.py lines 98 and 101-107): strip whitespace; if the text
begins with a triple-backtick fence, strip all backticks from both ends,
drop a leading case-insensitive `json` tag (plus whitespace), and drop a
trailing triple-backtick fence (plus whitespace). -/
def cleanL (cs : List Char) : List Char :=
  let r := pyStripL cs
  if startsFence r then
    let r1 := stripBt r
    let r2 := if lowerJsonTag r1 then pyStripL (r1.drop 4) else r1
    if endsFence r2 then pyStripL (dropR 3 r2) else r2
  else r

/-- Clean-up of `ask_openai_for_code` on a `String`. -/
def clean_ai_response (s : String) : String := String.mk (cleanL s.data)

/-- Attempt to match the regex `topic_name\s*=\s*["\']([^"\']+)["\']`
anchored at the current position, returning capture group 1 (main.py line
52).  The quote class matches either quote kind on both sides, the group
requires at least one character that is not a quote of either kind, and
`\s` is `isPySpace`. -/
def matchTopicAt (cs : List Char) : Option String :=
  match expectLit ['t', 'o', 'p', 'i', 'c', '_', 'n', 'a', 'm', 'e'] cs with
  | none => none
  | some r1 =>
    match r1.dropWhile isPySpace with
    | [] => none
    | c1 :: r3 =>
      if c1 = '=' then
        match r3.dropWhile isPySpace with
        | [] => none
        | q :: r5 =>
          if q = '"' ∨ q = squote then
            let grp := r5.takeWhile (fun c => decide (¬ (c = '"' ∨ c = squote)))
            match r5.dropWhile (fun c => decide (¬ (c = '"' ∨ c = squote))) with
            | _ :: _ => if grp = [] then none else some (String.mk grp)
            | [] => none
          else none
      else none

/-- Leftmost-match search, modelling `re.search`: try the pattern at every
position from the left and return the first successful match's group. -/
def searchTopic : List Char → Option String
  | [] => none
  | c :: cs =>
    match matchTopicAt (c :: cs) with
    | some g => some g
    | none => searchTopic cs

/-- Model of `extract_topic_from_code` (main.py lines 50-53): first
occurrence of a quoted assignment to `topic_name`, or `None`. -/
def extract_topic_from_code (code : String) : Option String :=
  searchTopic code.data

/-- Abstract behavior of `exec(code, {"__builtins__": __builtins__},
local_vars)` on one code string: normal termination with the text written
to the redirected stdout and `str(local_vars["result"])` when the code
bound a `result` variable; or a raised `Exception` with its `str`; or a
raised `BaseException` that is not an `Exception` (such as `SystemExit`,
`KeyboardInterrupt` or `GeneratorExit`), which `except Exception` does not
catch. -/
inductive ExecBehavior where
  | ok (stdout : String) (result : Option String)
  | exn (msg : String)
  | baseExn (msg : String)

/-- Model of `run_code_safely` (main.py lines 117-126), parameterised by
the semantics of `exec`.  `Except.ok` is a normal return; `Except.error`
models an exception escaping the function (only possible for a
`BaseException` that is not an `Exception`, since the handler catches
`Exception`). -/
def run_code_safely (execSem : String → ExecBehavior) (code : String) :
    Except String String :=
  match execSem code with
  | ExecBehavior.ok stdout result =>
    let out := pyStripS stdout
    Except.ok (if out = "" then
      (match result with
       | some r => r
       | none => ("<no result>"))
      else out)
  | ExecBehavior.exn msg => Except.ok (("Error while executing AI code: ") ++ msg)
  | ExecBehavior.baseExn msg => Except.error msg

/-- Lookup in the `dict` built by `json.loads` from an object's key/value
list: a duplicated key keeps its last occurrence, and `dict.get` returns
`None` (here `none`) when the key is absent. -/
def pyGet (kvs : List (String × Json)) (k : String) : Option Json :=
  (kvs.reverse.find? (fun p => p.1 == k)).map (fun p => p.2)

/-- True when the mantissa of a JSON number lexeme is zero, i.e. the
corresponding Python number is falsy (`0`, `-0.0`, `0e5`, ...).  `NaN` and
`Infinity` have no digits before the exponent marker and are truthy. -/
def numIsZero (lexeme : String) : Bool :=
  let m := lexeme.data.takeWhile (fun c => decide (¬ (c = 'e' ∨ c = 'E')))
  m.any Char.isDigit && m.all (fun c => !c.isDigit || c = '0')

/-- Python truthiness test `not x` on a decoded JSON value: `None`, `False`,
zero numbers, and empty strings/lists/dicts are falsy. -/
def pyFalsy : Json → Bool
  | Json.null => true
  | Json.bool b => !b
  | Json.num lexeme => numIsZero lexeme
  | Json.str s => decide (s = "")
  | Json.arr es => es.isEmpty
  | Json.obj kvs => kvs.isEmpty

/-- Python type name of a decoded JSON value, used in the `AttributeError`
raised by `.get` on a non-dict (`float` when the lexeme has a fractional or
exponent part or is a non-finite constant, `int` otherwise). -/
def pyTypeName : Json → String
  | Json.null => "NoneType"
  | Json.bool _ => "bool"
  | Json.num lexeme =>
    if lexeme.data.any (fun c => decide (c = '.' ∨ c = 'e' ∨ c = 'E' ∨ c = 'N' ∨ c = 'I'))
      then "float" else "int"
  | Json.str _ => "str"
  | Json.arr _ => "list"
  | Json.obj _ => "dict"

/-- Starlette's `HTTPException.__str__`, producing `"500: <detail>"`; the
handler's final `except Exception` re-wraps an inner `HTTPException e` as
`HTTPException(500, str(e))`. -/
def httpExcStr (status : Nat) (detail : String) : String :=
  toString status ++ (": ") ++ detail

/-- Message of the `AttributeError` raised by `ai_output.get(...)` when
`json.loads` produced a non-dict value. -/
def noGetAttr (j : Json) : String :=
  ("'") ++ pyTypeName j ++ ("' object has no attribute 'get'")

/-- Message of the `TypeError` raised by `re.search` when the `code` value
is truthy but not a string. -/
def typeErrReSearch : String := "expected string or bytes-like object"

/-- Externally visible result of one successful request (main.py lines
150-156).  `explanation` is included verbatim as decoded, so it keeps its
JSON type. -/
structure Payload where
  prompt : String
  topic_in_use : Option String
  explanation : Json
  executed_code : String
  result : String

/-- Outcome of one request: a 200 payload, an HTTP 500 `HTTPException`
carrying `detail`, or an uncaught `BaseException` escaping the handler. -/
inductive AgentOutcome where
  | success (p : Payload)
  | httpError (detail : String)
  | uncaught (msg : String)

/-- Memory write performed at main.py lines 145-147: `if extracted:
last_topic = extracted` — the write happens only when the extracted value
is truthy (a non-empty string). -/
def topicWrite : Option String → Option String
  | some t => if t = "" then none else some t
  | none => none

/-- Unconditional overwrite semantics of the global slot: a request that
produced a write event replaces the memory, otherwise the memory is left
as it was. -/
def applyWrite (w : Option String) (mem : Option String) : Option String :=
  match w with
  | some t => some t
  | none => mem

/-- Model of the endpoint `kafka_agent` (main.py lines 131-158) handling a
single request.  `execSem` gives the semantics of `exec` on generated
code; `complete` abstracts `ask_openai_for_code`'s OpenAI call, mapping
the remembered topic read from the global slot to either the raw
completion text or the message of a raised exception.  Returns the
request's outcome and the value of `last_topic` after the request.  An
inner `HTTPException` is caught by the handler's `except Exception` and
re-raised as `HTTPException(500, str(e))`, hence the `httpExcStr` prefix
on those paths. -/
def kafka_agent (execSem : String → ExecBehavior)
    (complete : Option String → Except String String)
    (prompt : String) (mem : Option String) : AgentOutcome × Option String :=
  match complete mem with
  | Except.error e => (AgentOutcome.httpError e, mem)
  | Except.ok raw =>
    let cleaned := clean_ai_response raw
    match parseJson cleaned with
    | none =>
      (AgentOutcome.httpError
        (httpExcStr 500 (("AI response was not valid JSON: ") ++ cleaned)), mem)
    | some ai =>
      match ai with
      | Json.obj kvs =>
        let codeJ := (pyGet kvs ("code")).getD Json.null
        let explanation := (pyGet kvs ("explanation")).getD (Json.str (""))
        if pyFalsy codeJ then
          (AgentOutcome.httpError (httpExcStr 500 ("AI did not return code")), mem)
        else
          match codeJ with
          | Json.str code =>
            match run_code_safely execSem code with
            | Except.error b => (AgentOutcome.uncaught b, mem)
            | Except.ok result =>
              let newMem := applyWrite (topicWrite (extract_topic_from_code code)) mem
              (AgentOutcome.success
                { prompt := prompt, topic_in_use := newMem,
                  explanation := explanation, executed_code := code,
                  result := result }, newMem)
          | _ => (AgentOutcome.httpError typeErrReSearch, mem)
      | other => (AgentOutcome.httpError (noGetAttr other), mem)

/-- The write event a single request contributes to the shared memory
slot: the topic extracted from its generated code when the request reaches
the write at main.py line 147, and no event otherwise.  `readVal` is the
snapshot of `last_topic` the request read when calling the completion. -/
def topicWriteEvent (execSem : String → ExecBehavior)
    (complete : Option String → Except String String)
    (readVal : Option String) : Option String :=
  match complete readVal with
  | Except.error _ => none
  | Except.ok raw =>
    match parseJson (clean_ai_response raw) with
    | some (Json.obj kvs) =>
      let codeJ := (pyGet kvs ("code")).getD Json.null
      if pyFalsy codeJ then none
      else
        match codeJ with
        | Json.str code =>
          match run_code_safely execSem code with
          | Except.ok _ => topicWrite (extract_topic_from_code code)
          | Except.error _ => none
        | _ => none
    | _ => none

/-- Fenced wrapping with a `json` language tag, as in the spec's round-trip
property (modelled from the spec's words). -/
def wrapJson (t : String) : String := ("```json\n") ++ t ++ ("\n```")

/-- Fenced wrapping without a language tag (modelled from the spec's
words). -/
def wrapNoTag (t : String) : String := ("```\n") ++ t ++ ("\n```")

/-- Full response parsing of `ask_openai_for_code`: clean-up then
`json.loads`; `none` is the `HTTPException` path. -/
def parse_completion (s : String) : Option Json := parseJson (clean_ai_response s)

/-- Invariant on the memory slot claimed by C10: absent or a non-empty
string. -/
def memInvB : Option String → Bool
  | none => true
  | some s => decide (¬ s = "")

/-- Statement that the character just before the returned rest of a parse
is not a backtick: `cs` is the consumed part followed by `rest`, the
consumed part is non-empty, and its final character differs from a
backtick.  Used to show that text accepted by `json.loads` never ends in a
backtick. -/
def tailsTo (cs rest : List Char) : Prop :=
  ∃ pre d, cs = pre ++ d :: rest ∧ d ≠ btick

theorem isJWs_spec {c : Char} : isJWs c = true ↔ (c = ' ' ∨ c = '\t' ∨ c = '\n' ∨ c = '\r') := by
  simp [isJWs]

theorem isPySpace_spec {c : Char} :
    isPySpace c = true ↔
      (c = ' ' ∨ c = '\t' ∨ c = '\n' ∨ c = '\r' ∨ c = '\x0b' ∨ c = '\x0c') := by
  simp [isPySpace]

theorem isJWs_isPySpace {c : Char} (h : isJWs c = true) : isPySpace c = true := by
  rcases isJWs_spec.1 h with rfl | rfl | rfl | rfl <;> decide

theorem isJWs_ne_btick {c : Char} (h : isJWs c = true) : c ≠ btick := by
  rcases isJWs_spec.1 h with rfl | rfl | rfl | rfl <;> decide

theorem isJWs_not_digit {c : Char} (h : isJWs c = true) : c.isDigit = false := by
  rcases isJWs_spec.1 h with rfl | rfl | rfl | rfl <;> decide

theorem dropWhile_append_pos {p : Char → Bool} :
    ∀ {cs : List Char} {d : Char} {ds : List Char},
      cs.dropWhile p = d :: ds → ∀ W, (cs ++ W).dropWhile p = d :: (ds ++ W) := by
  intro cs
  induction cs with
  | nil => intro d ds h W; simp [List.dropWhile] at h
  | cons c cs ih =>
    intro d ds h W
    by_cases hc : p c
    · rw [List.dropWhile_cons_of_pos hc] at h
      rw [List.cons_append, List.dropWhile_cons_of_pos hc]
      exact ih h W
    · rw [List.dropWhile_cons_of_neg hc] at h
      rw [List.cons_append, List.dropWhile_cons_of_neg hc]
      cases h
      rfl

theorem takeWhile_append_stop {p : Char → Bool} {W : List Char}
    (hW : ∀ c ∈ W, p c = false) :
    ∀ cs : List Char, (cs ++ W).takeWhile p = cs.takeWhile p := by
  intro cs
  induction cs with
  | nil =>
    cases W with
    | nil => rfl
    | cons w ws =>
      simp [List.takeWhile, hW w (List.mem_cons_self w ws)]
  | cons c cs ih =>
    by_cases hc : p c
    · rw [List.cons_append, List.takeWhile_cons_of_pos hc, List.takeWhile_cons_of_pos hc, ih]
    · rw [List.cons_append, List.takeWhile_cons_of_neg hc, List.takeWhile_cons_of_neg hc]

theorem dropWhile_append_stop {p : Char → Bool} {W : List Char}
    (hW : ∀ c ∈ W, p c = false) :
    ∀ cs : List Char, (cs ++ W).dropWhile p = cs.dropWhile p ++ W := by
  intro cs
  induction cs with
  | nil =>
    cases W with
    | nil => rfl
    | cons w ws =>
      simp [List.dropWhile, hW w (List.mem_cons_self w ws)]
  | cons c cs ih =>
    by_cases hc : p c
    · rw [List.cons_append, List.dropWhile_cons_of_pos hc, List.dropWhile_cons_of_pos hc, ih]
    · rw [List.cons_append, List.dropWhile_cons_of_neg hc, List.dropWhile_cons_of_neg hc,
        List.cons_append]

theorem skipWs_append_cons {cs : List Char} {d : Char} {ds : List Char}
    (h : skipWs cs = d :: ds) (W : List Char) : skipWs (cs ++ W) = d :: (ds ++ W) :=
  dropWhile_append_pos h W

theorem skipWs_decomp {cs : List Char} {d : Char} {ds : List Char}
    (h : skipWs cs = d :: ds) : cs = cs.takeWhile isJWs ++ d :: ds := by
  conv_lhs => rw [← List.takeWhile_append_dropWhile (p := isJWs) (l := cs)]
  rw [show cs.dropWhile isJWs = d :: ds from h]

theorem mem_takeWhile_pred {p : Char → Bool} :
    ∀ {cs : List Char} {c : Char}, c ∈ cs.takeWhile p → p c = true := by
  intro cs
  induction cs with
  | nil => intro c h; simp [List.takeWhile] at h
  | cons a cs ih =>
    intro c h
    by_cases ha : p a
    · rw [List.takeWhile_cons_of_pos ha] at h
      rcases List.mem_cons.1 h with rfl | h
      · exact ha
      · exact ih h
    · rw [List.takeWhile_cons_of_neg ha] at h
      simp at h

theorem skipWs_eq_nil {cs : List Char} (h : skipWs cs = []) {c : Char} (hc : c ∈ cs) :
    isJWs c = true := by
  have := List.dropWhile_eq_nil_iff.1 h
  exact this c hc

theorem skipWs_append_nil {cs W : List Char} (h : skipWs cs = [])
    (hW : ∀ c ∈ W, isJWs c = true) : skipWs (cs ++ W) = [] := by
  apply List.dropWhile_eq_nil_iff.2
  intro c hc
  rcases List.mem_append.1 hc with hc | hc
  · exact skipWs_eq_nil h hc
  · exact hW c hc

theorem expectLit_ext :
    ∀ {pat cs rest : List Char}, expectLit pat cs = some rest →
      ∀ W, expectLit pat (cs ++ W) = some (rest ++ W) := by
  intro pat
  induction pat with
  | nil => intro cs rest h W; cases h; rfl
  | cons p ps ih =>
    intro cs rest h W
    cases cs with
    | nil => simp [expectLit] at h
    | cons c cs =>
      by_cases hc : c = p
      · rw [expectLit, if_pos hc] at h
        rw [List.cons_append, expectLit, if_pos hc]
        exact ih h W
      · rw [expectLit, if_neg hc] at h
        cases h

theorem expectLit_eq :
    ∀ {pat cs rest : List Char}, expectLit pat cs = some rest → cs = pat ++ rest := by
  intro pat
  induction pat with
  | nil => intro cs rest h; cases h; rfl
  | cons p ps ih =>
    intro cs rest h
    cases cs with
    | nil => simp [expectLit] at h
    | cons c cs =>
      by_cases hc : c = p
      · rw [expectLit, if_pos hc] at h
        rw [List.cons_append, hc, ih h]
      · rw [expectLit, if_neg hc] at h
        cases h

theorem tailsTo_here {d : Char} (hd : d ≠ btick) (rest : List Char) :
    tailsTo (d :: rest) rest :=
  ⟨[], d, rfl, hd⟩

theorem tailsTo_cons (c : Char) {cs rest : List Char} (h : tailsTo cs rest) :
    tailsTo (c :: cs) rest := by
  rcases h with ⟨pre, d, heq, hd⟩
  exact ⟨c :: pre, d, by rw [heq]; rfl, hd⟩

theorem tailsTo_append (a : List Char) {cs rest : List Char} (h : tailsTo cs rest) :
    tailsTo (a ++ cs) rest := by
  rcases h with ⟨pre, d, heq, hd⟩
  exact ⟨a ++ pre, d, by rw [heq, List.append_assoc], hd⟩

theorem tailsTo_ws_boundary (a tw : List Char) (c0 : Char) (h0 : c0 ≠ btick)
    (htw : ∀ c ∈ tw, isJWs c = true) (rest : List Char) :
    tailsTo (a ++ c0 :: (tw ++ rest)) rest := by
  rcases List.eq_nil_or_concat tw with rfl | ⟨t2, w, rfl⟩
  · exact tailsTo_append a (tailsTo_here h0 rest)
  · refine ⟨a ++ c0 :: t2, w, ?_, ?_⟩
    · simp [List.append_assoc]
    · exact isJWs_ne_btick (htw w (by simp))

theorem tailsTo_suffix {cs rest : List Char} (h : tailsTo cs rest) :
    ∃ pre, cs = pre ++ rest ∧ pre ≠ [] := by
  rcases h with ⟨pre, d, heq, _⟩
  exact ⟨pre ++ [d], by rw [heq]; simp, by simp⟩

theorem hex4_ext {cs : List Char} {n : Nat} {rest : List Char}
    (h : hex4 cs = some (n, rest)) (W : List Char) :
    hex4 (cs ++ W) = some (n, rest ++ W) := by
  rcases cs with _ | ⟨a, _ | ⟨b, _ | ⟨c, _ | ⟨d, cs⟩⟩⟩⟩ <;>
    simp only [hex4] at h ⊢
  · cases h
  · cases h
  · cases h
  · cases h
  · rcases ha : hexVal a with _ | va <;> rw [ha] at h <;>
      rcases hb : hexVal b with _ | vb <;> rw [hb] at h <;>
      rcases hc : hexVal c with _ | vc <;> rw [hc] at h <;>
      rcases hd : hexVal d with _ | vd <;> rw [hd] at h <;>
      simp_all

theorem hex4_eq {cs : List Char} {n : Nat} {rest : List Char}
    (h : hex4 cs = some (n, rest)) :
    ∃ a b c d, cs = a :: b :: c :: d :: rest := by
  rcases cs with _ | ⟨a, _ | ⟨b, _ | ⟨c, _ | ⟨d, cs⟩⟩⟩⟩ <;>
    simp only [hex4] at h
  · cases h
  · cases h
  · cases h
  · cases h
  · rcases ha : hexVal a with _ | va <;> rw [ha] at h <;>
      rcases hb : hexVal b with _ | vb <;> rw [hb] at h <;>
      rcases hc : hexVal c with _ | vc <;> rw [hc] at h <;>
      rcases hd : hexVal d with _ | vd <;> rw [hd] at h <;>
      (cases h <;> exact ⟨a, b, c, d, rfl⟩)

theorem numFrac_split : ∀ r : List Char, (numFrac r).1 ++ (numFrac r).2 = r := by
  intro r
  cases r with
  | nil => rfl
  | cons c r2 =>
    by_cases hc : c = '.'
    · subst hc
      by_cases hds : r2.takeWhile Char.isDigit = []
      · simp [numFrac, hds]
      · simp [numFrac, hds, List.takeWhile_append_dropWhile]
    · simp [numFrac, hc]

theorem numFrac_ext {W : List Char} (hW : ∀ c ∈ W, isJWs c = true) (r : List Char) :
    numFrac (r ++ W) = ((numFrac r).1, (numFrac r).2 ++ W) := by
  have hWd : ∀ c ∈ W, Char.isDigit c = false := fun c hc => isJWs_not_digit (hW c hc)
  cases r with
  | nil =>
    cases W with
    | nil => rfl
    | cons w ws =>
      have hw : isJWs w = true := hW w (List.mem_cons_self w ws)
      have hwd : w ≠ '.' := by
        rcases isJWs_spec.1 hw with rfl | rfl | rfl | rfl <;> decide
      simp [numFrac, hwd]
  | cons c r2 =>
    rw [List.cons_append]
    by_cases hc : c = '.'
    · subst hc
      by_cases hds : r2.takeWhile Char.isDigit = []
      · simp [numFrac, hds, takeWhile_append_stop hWd]
      · simp [numFrac, hds, takeWhile_append_stop hWd, dropWhile_append_stop hWd]
    · simp [numFrac, hc]

theorem numFrac_chars {r : List Char} {c : Char} (h : c ∈ (numFrac r).1) :
    c = '.' ∨ c.isDigit = true := by
  cases r with
  | nil => simp [numFrac] at h
  | cons a r2 =>
    by_cases ha : a = '.'
    · subst ha
      by_cases hds : r2.takeWhile Char.isDigit = []
      · simp [numFrac, hds] at h
      · simp only [numFrac, hds, if_pos rfl, if_neg hds] at h
        rcases List.mem_cons.1 h with rfl | h
        · exact Or.inl rfl
        · exact Or.inr (mem_takeWhile_pred h)
    · simp [numFrac, ha] at h

theorem numExp_split : ∀ r : List Char, (numExp r).1 ++ (numExp r).2 = r := by
  intro r
  cases r with
  | nil => rfl
  | cons e r2 =>
    by_cases he : e = 'e' ∨ e = 'E'
    · cases r2 with
      | nil => simp [numExp, he]
      | cons s r3 =>
        by_cases hs : s = '+' ∨ s = '-'
        · by_cases hds : r3.takeWhile Char.isDigit = []
          · simp [numExp, he, hs, hds]
          · simp [numExp, he, hs, hds, List.takeWhile_append_dropWhile]
        · by_cases hds : (s :: r3).takeWhile Char.isDigit = []
          · simp [numExp, he, hs, hds]
          · simp [numExp, he, hs, hds, List.takeWhile_append_dropWhile]
    · simp [numExp, he]

theorem numExp_ext {W : List Char} (hW : ∀ c ∈ W, isJWs c = true) (r : List Char) :
    numExp (r ++ W) = ((numExp r).1, (numExp r).2 ++ W) := by
  have hWd : ∀ c ∈ W, Char.isDigit c = false := fun c hc => isJWs_not_digit (hW c hc)
  cases r with
  | nil =>
    cases W with
    | nil => rfl
    | cons w ws =>
      have hw : isJWs w = true := hW w (List.mem_cons_self w ws)
      have hwe : ¬ (w = 'e' ∨ w = 'E') := by
        rcases isJWs_spec.1 hw with rfl | rfl | rfl | rfl <;> decide
      simp [numExp, hwe]
  | cons e r2 =>
    rw [List.cons_append]
    by_cases he : e = 'e' ∨ e = 'E'
    · cases r2 with
      | nil =>
        cases W with
        | nil => simp
        | cons w ws =>
          have hw : isJWs w = true := hW w (List.mem_cons_self w ws)
          have hws : ¬ (w = '+' ∨ w = '-') := by
            rcases isJWs_spec.1 hw with rfl | rfl | rfl | rfl <;> decide
          have hwd : Char.isDigit w = false := isJWs_not_digit hw
          have htk : (w :: ws).takeWhile Char.isDigit = [] :=
            List.takeWhile_cons_of_neg (by simp [hwd])
          simp [numExp, he, hws, htk]
      | cons s r3 =>
        by_cases hs : s = '+' ∨ s = '-'
        · rw [List.cons_append]
          by_cases hds : r3.takeWhile Char.isDigit = []
          · simp [numExp, he, hs, hds, takeWhile_append_stop hWd]
          · simp [numExp, he, hs, hds, takeWhile_append_stop hWd, dropWhile_append_stop hWd]
        · rw [List.cons_append]
          by_cases hsd : s.isDigit = true
          · have ht : (r3 ++ W).takeWhile Char.isDigit = r3.takeWhile Char.isDigit :=
              takeWhile_append_stop hWd r3
            have hd : (r3 ++ W).dropWhile Char.isDigit = r3.dropWhile Char.isDigit ++ W :=
              dropWhile_append_stop hWd r3
            simp [numExp, he, hs, List.takeWhile_cons_of_pos hsd,
              List.dropWhile_cons_of_pos hsd, ht, hd]
          · simp [numExp, he, hs, List.takeWhile_cons_of_neg hsd]
    · simp [numExp, he]

theorem numExp_chars {r : List Char} {c : Char} (h : c ∈ (numExp r).1) :
    c = 'e' ∨ c = 'E' ∨ c = '+' ∨ c = '-' ∨ c.isDigit = true := by
  cases r with
  | nil => simp [numExp] at h
  | cons e r2 =>
    by_cases he : e = 'e' ∨ e = 'E'
    · cases r2 with
      | nil => simp [numExp, he] at h
      | cons s r3 =>
        by_cases hs : s = '+' ∨ s = '-'
        · by_cases hds : r3.takeWhile Char.isDigit = []
          · simp [numExp, he, hs, hds] at h
          · simp only [numExp, if_pos he] at h
            simp [hs, hds, List.mem_cons, List.mem_append] at h
            rcases h with rfl | (rfl | h)
            · tauto
            · tauto
            · exact Or.inr (Or.inr (Or.inr (Or.inr (mem_takeWhile_pred h))))
        · by_cases hds : (s :: r3).takeWhile Char.isDigit = []
          · simp [numExp, he, hs, hds] at h
          · simp only [numExp, if_pos he] at h
            simp [hs, hds, List.mem_cons, List.mem_append] at h
            rcases h with rfl | h
            · tauto
            · exact Or.inr (Or.inr (Or.inr (Or.inr (mem_takeWhile_pred h))))
    · simp [numExp, he] at h


theorem ip_facts {c : Char} {r : List Char} (hc : c.isDigit = true) :
    (if c = '0' then (['0'], r)
      else (c :: r.takeWhile Char.isDigit, r.dropWhile Char.isDigit)).1 ++
    (if c = '0' then (['0'], r)
      else (c :: r.takeWhile Char.isDigit, r.dropWhile Char.isDigit)).2 = c :: r ∧
    (if c = '0' then (['0'], r)
      else (c :: r.takeWhile Char.isDigit, r.dropWhile Char.isDigit)).1 ≠ [] ∧
    ∀ x ∈ (if c = '0' then (['0'], r)
      else (c :: r.takeWhile Char.isDigit, r.dropWhile Char.isDigit)).1,
      x.isDigit = true := by
  by_cases hc0 : c = '0'
  · subst hc0
    refine ⟨rfl, by simp, ?_⟩
    intro x hx
    simp at hx
    subst hx
    decide
  · simp only [if_neg hc0]
    refine ⟨by simp [List.takeWhile_append_dropWhile], by simp, ?_⟩
    intro x hx
    rcases List.mem_cons.1 hx with rfl | hx
    · exact hc
    · exact mem_takeWhile_pred hx

theorem numTail_chars {m : List Char} {x : Char}
    (hx : x ∈ (numFrac m).1 ++ (numExp (numFrac m).2).1) : x ≠ btick := by
  have hchar : ∀ y : Char, y.isDigit = true → y ≠ btick := by
    intro y hy heq
    subst heq
    exact absurd hy (by decide)
  rcases List.mem_append.1 hx with hx | hx
  · rcases numFrac_chars hx with rfl | hd
    · decide
    · exact hchar x hd
  · rcases numExp_chars hx with rfl | rfl | rfl | rfl | hd
    · decide
    · decide
    · decide
    · decide
    · exact hchar x hd

theorem numTail_split (m : List Char) :
    ((numFrac m).1 ++ (numExp (numFrac m).2).1) ++ (numExp (numFrac m).2).2 = m := by
  rw [List.append_assoc, numExp_split, numFrac_split]

theorem pNumber_eq {cs lex rest : List Char} (h : pNumber cs = some (lex, rest)) :
    cs = lex ++ rest ∧ lex ≠ [] ∧ ∀ c ∈ lex, c ≠ btick := by
  cases cs with
  | nil => simp [pNumber] at h
  | cons a cs' =>
    by_cases ha : a = '-'
    · subst ha
      cases cs' with
      | nil => simp [pNumber] at h
      | cons b r =>
        by_cases hb : b.isDigit = true
        · have hcalc : pNumber ('-' :: b :: r) =
              some ('-' :: ((if b = '0' then (['0'], r)
                  else (b :: r.takeWhile Char.isDigit, r.dropWhile Char.isDigit)).1 ++
                ((numFrac (if b = '0' then (['0'], r)
                  else (b :: r.takeWhile Char.isDigit, r.dropWhile Char.isDigit)).2).1 ++
                (numExp (numFrac (if b = '0' then (['0'], r)
                  else (b :: r.takeWhile Char.isDigit, r.dropWhile Char.isDigit)).2).2).1)),
                (numExp (numFrac (if b = '0' then (['0'], r)
                  else (b :: r.takeWhile Char.isDigit, r.dropWhile Char.isDigit)).2).2).2) := by
            simp [pNumber, hb]
          rw [hcalc] at h
          simp only [Option.some.injEq, Prod.mk.injEq] at h
          obtain ⟨hlex, hrest⟩ := h
          subst hlex
          subst hrest
          obtain ⟨hsplit, hne, hdig⟩ := ip_facts (r := r) hb
          refine ⟨?_, by simp, ?_⟩
          · rw [List.cons_append, List.append_assoc, List.append_assoc, numExp_split,
              numFrac_split, hsplit]
          · intro x hx
            rcases List.mem_cons.1 hx with rfl | hx
            · decide
            · rcases List.mem_append.1 hx with hx | hx
              · intro heq
                subst heq
                exact absurd (hdig _ hx) (by decide)
              · exact numTail_chars hx
        · simp [pNumber, hb] at h
    · cases hb : a.isDigit with
      | false => simp [pNumber, ha, hb] at h
      | true =>
        have hcalc : pNumber (a :: cs') =
            some ((if a = '0' then (['0'], cs')
                else (a :: cs'.takeWhile Char.isDigit, cs'.dropWhile Char.isDigit)).1 ++
              ((numFrac (if a = '0' then (['0'], cs')
                else (a :: cs'.takeWhile Char.isDigit, cs'.dropWhile Char.isDigit)).2).1 ++
              (numExp (numFrac (if a = '0' then (['0'], cs')
                else (a :: cs'.takeWhile Char.isDigit, cs'.dropWhile Char.isDigit)).2).2).1),
              (numExp (numFrac (if a = '0' then (['0'], cs')
                else (a :: cs'.takeWhile Char.isDigit, cs'.dropWhile Char.isDigit)).2).2).2) := by
          simp [pNumber, ha, hb]
        rw [hcalc] at h
        simp only [Option.some.injEq, Prod.mk.injEq] at h
        obtain ⟨hlex, hrest⟩ := h
        subst hlex
        subst hrest
        obtain ⟨hsplit, hne, hdig⟩ := ip_facts (r := cs') hb
        refine ⟨?_, fun hnil => hne (List.append_eq_nil.mp hnil).1, ?_⟩
        · rw [List.append_assoc, List.append_assoc, numExp_split, numFrac_split, hsplit]
        · intro x hx
          rcases List.mem_append.1 hx with hx | hx
          · intro heq
            subst heq
            exact absurd (hdig _ hx) (by decide)
          · exact numTail_chars hx

theorem pNumber_ext {W : List Char} (hW : ∀ c ∈ W, isJWs c = true)
    {cs lex rest : List Char} (h : pNumber cs = some (lex, rest)) :
    pNumber (cs ++ W) = some (lex, rest ++ W) := by
  have hWd : ∀ c ∈ W, Char.isDigit c = false := fun c hc => isJWs_not_digit (hW c hc)
  cases cs with
  | nil => simp [pNumber] at h
  | cons a cs' =>
    by_cases ha : a = '-'
    · subst ha
      cases cs' with
      | nil => simp [pNumber] at h
      | cons b r =>
        by_cases hb : b.isDigit = true
        · have hL : pNumber ('-' :: b :: r) =
              some ('-' :: ((if b = '0' then (['0'], r)
                  else (b :: r.takeWhile Char.isDigit, r.dropWhile Char.isDigit)).1 ++
                ((numFrac (if b = '0' then (['0'], r)
                  else (b :: r.takeWhile Char.isDigit, r.dropWhile Char.isDigit)).2).1 ++
                (numExp (numFrac (if b = '0' then (['0'], r)
                  else (b :: r.takeWhile Char.isDigit, r.dropWhile Char.isDigit)).2).2).1)),
                (numExp (numFrac (if b = '0' then (['0'], r)
                  else (b :: r.takeWhile Char.isDigit, r.dropWhile Char.isDigit)).2).2).2) := by
            simp [pNumber, hb]
          rw [hL] at h
          simp only [Option.some.injEq, Prod.mk.injEq] at h
          obtain ⟨hlex, hrest⟩ := h
          subst hlex
          subst hrest
          by_cases hb0 : b = '0'
          · subst hb0
            simp [pNumber, numFrac_ext hW, numExp_ext hW]
          · simp [pNumber, hb, hb0, takeWhile_append_stop hWd, dropWhile_append_stop hWd,
              numFrac_ext hW, numExp_ext hW]
        · simp [pNumber, hb] at h
    · cases hb : a.isDigit with
      | false => simp [pNumber, ha, hb] at h
      | true =>
        have hL : pNumber (a :: cs') =
            some ((if a = '0' then (['0'], cs')
                else (a :: cs'.takeWhile Char.isDigit, cs'.dropWhile Char.isDigit)).1 ++
              ((numFrac (if a = '0' then (['0'], cs')
                else (a :: cs'.takeWhile Char.isDigit, cs'.dropWhile Char.isDigit)).2).1 ++
              (numExp (numFrac (if a = '0' then (['0'], cs')
                else (a :: cs'.takeWhile Char.isDigit, cs'.dropWhile Char.isDigit)).2).2).1),
              (numExp (numFrac (if a = '0' then (['0'], cs')
                else (a :: cs'.takeWhile Char.isDigit, cs'.dropWhile Char.isDigit)).2).2).2) := by
          simp [pNumber, ha, hb]
        rw [hL] at h
        simp only [Option.some.injEq, Prod.mk.injEq] at h
        obtain ⟨hlex, hrest⟩ := h
        subst hlex
        subst hrest
        by_cases hb0 : a = '0'
        · subst hb0
          simp [pNumber, numFrac_ext hW, numExp_ext hW]
        · simp [pNumber, ha, hb, hb0, takeWhile_append_stop hWd, dropWhile_append_stop hWd,
            numFrac_ext hW, numExp_ext hW]

theorem pStr_ext : ∀ (f : Nat) {cs s rest : List Char},
    pStr f cs = some (s, rest) → ∀ (k : Nat) (W : List Char),
    pStr (f + k) (cs ++ W) = some (s, rest ++ W) := by
  intro f
  induction f with
  | zero => intro cs s rest h; simp [pStr] at h
  | succ f ih =>
    intro cs s rest h k W
    rw [Nat.add_right_comm]
    cases cs with
    | nil => simp [pStr] at h
    | cons c rest' =>
      rw [List.cons_append]
      by_cases hq : c = '"'
      · simp only [pStr, if_pos hq] at h ⊢
        simp only [Option.some.injEq, Prod.mk.injEq] at h
        obtain ⟨rfl, rfl⟩ := h
        rfl
      · by_cases hb : c = '\\'
        · cases rest' with
          | nil => simp [pStr, hq, hb] at h
          | cons e rest2 =>
            by_cases hu : e = 'u'
            · rcases hh : hex4 rest2 with _ | ⟨n, rest3⟩
              · simp [pStr, hq, hb, hu, hh] at h
              · simp only [pStr, if_neg hq, if_pos hb, if_pos hu, hh] at h
                rcases Option.map_eq_some'.1 h with ⟨p, hp, hps⟩
                injection hps with h1 h2
                subst h1
                subst h2
                rw [List.cons_append]
                simp only [pStr, if_neg hq, if_pos hb, if_pos hu, hex4_ext hh W]
                rw [ih hp k W]
                rfl
            · rcases he : escChar e with _ | ec
              · simp [pStr, hq, hb, hu, he] at h
              · simp only [pStr, if_neg hq, if_pos hb, if_neg hu, he] at h
                rcases Option.map_eq_some'.1 h with ⟨p, hp, hps⟩
                injection hps with h1 h2
                subst h1
                subst h2
                rw [List.cons_append]
                simp only [pStr, if_neg hq, if_pos hb, if_neg hu, he]
                rw [ih hp k W]
                rfl
        · by_cases hc : c.toNat < 32
          · simp [pStr, hq, hb, hc] at h
          · simp only [pStr, if_neg hq, if_neg hb, if_neg hc] at h
            rcases Option.map_eq_some'.1 h with ⟨p, hp, hps⟩
            injection hps with h1 h2
            subst h1
            subst h2
            simp only [pStr, if_neg hq, if_neg hb, if_neg hc]
            rw [ih hp k W]
            rfl

theorem pStr_tails : ∀ (f : Nat) {cs s rest : List Char},
    pStr f cs = some (s, rest) → tailsTo cs rest := by
  intro f
  induction f with
  | zero => intro cs s rest h; simp [pStr] at h
  | succ f ih =>
    intro cs s rest h
    cases cs with
    | nil => simp [pStr] at h
    | cons c rest' =>
      by_cases hq : c = '"'
      · simp only [pStr, if_pos hq] at h
        injection h with h1
        injection h1 with h2 h3
        subst h3
        subst hq
        exact tailsTo_here (by decide) rest'
      · by_cases hb : c = '\\'
        · cases rest' with
          | nil => simp [pStr, hq, hb] at h
          | cons e rest2 =>
            by_cases hu : e = 'u'
            · rcases hh : hex4 rest2 with _ | ⟨n, rest3⟩
              · simp [pStr, hq, hb, hu, hh] at h
              · simp only [pStr, if_neg hq, if_pos hb, if_pos hu, hh] at h
                rcases Option.map_eq_some'.1 h with ⟨p, hp, hps⟩
                injection hps with h1 h2
                subst h2
                rcases hex4_eq hh with ⟨a, b2, c2, d2, rfl⟩
                exact tailsTo_cons c (tailsTo_cons e (tailsTo_cons a (tailsTo_cons b2
                  (tailsTo_cons c2 (tailsTo_cons d2 (ih hp))))))
            · rcases he : escChar e with _ | ec
              · simp [pStr, hq, hb, hu, he] at h
              · simp only [pStr, if_neg hq, if_pos hb, if_neg hu, he] at h
                rcases Option.map_eq_some'.1 h with ⟨p, hp, hps⟩
                injection hps with h1 h2
                subst h2
                exact tailsTo_cons c (tailsTo_cons e (ih hp))
        · by_cases hc : c.toNat < 32
          · simp [pStr, hq, hb, hc] at h
          · simp only [pStr, if_neg hq, if_neg hb, if_neg hc] at h
            rcases Option.map_eq_some'.1 h with ⟨p, hp, hps⟩
            injection hps with h1 h2
            subst h2
            exact tailsTo_cons c (ih hp)

theorem pValue_nil : ∀ f : Nat, pValue f ([] : List Char) = none := by
  intro f
  cases f with
  | zero => rfl
  | succ f => rfl

theorem pValue_ext : ∀ (f : Nat) {cs : List Char} {j : Json} {rest : List Char},
    pValue f cs = some (j, rest) → ∀ (k : Nat) (W : List Char),
    (∀ c ∈ W, isJWs c = true) → pValue (f + k) (cs ++ W) = some (j, rest ++ W) := by
  intro f
  induction f with
  | zero => intro cs j rest h; simp [pValue] at h
  | succ f ih =>
    intro cs j rest h k W hW
    rw [Nat.add_right_comm]
    cases cs with
    | nil => simp [pValue] at h
    | cons c rest' =>
      rw [List.cons_append]
      by_cases hq : c = '"'
      · simp only [pValue, if_pos hq] at h ⊢
        rcases Option.map_eq_some'.1 h with ⟨p, hp, hps⟩
        injection hps with h1 h2
        subst h1
        subst h2
        rw [pStr_ext f hp k W]
        rfl
      · by_cases hob : c = '{'
        · simp only [pValue, if_neg hq, if_pos hob] at h ⊢
          rcases hsw : skipWs rest' with _ | ⟨c2, r2⟩ <;> simp only [hsw] at h
          · cases h
          · simp only [skipWs_append_cons hsw W]
            by_cases h2 : c2 = '}'
            · rw [if_pos h2] at h ⊢
              injection h with h1
              injection h1 with hj hr
              subst hj
              subst hr
              rfl
            · by_cases h3 : c2 = '"'
              · rw [if_neg h2, if_pos h3] at h ⊢
                rcases hps : pStr f r2 with _ | ⟨key, r3⟩ <;> simp only [hps] at h
                · cases h
                · simp only [pStr_ext f hps k W]
                  rcases hsw2 : skipWs r3 with _ | ⟨c3, r4⟩ <;> simp only [hsw2] at h
                  · cases h
                  · simp only [skipWs_append_cons hsw2 W]
                    by_cases h4 : c3 = ':'
                    · rw [if_pos h4] at h ⊢
                      rcases hsw3 : skipWs r4 with _ | ⟨c5', r5'⟩
                      · rw [hsw3, pValue_nil] at h
                        cases h
                      · rw [hsw3] at h
                        rw [skipWs_append_cons hsw3 W]
                        rcases hpv : pValue f (c5' :: r5') with _ | ⟨v, r5⟩ <;>
                          simp only [hpv] at h
                        · cases h
                        · have hgv := ih hpv k W hW
                          rw [List.cons_append] at hgv
                          simp only [hgv]
                          rcases hsw4 : skipWs r5 with _ | ⟨c4, r6⟩ <;>
                            simp only [hsw4] at h
                          · cases h
                          · simp only [skipWs_append_cons hsw4 W]
                            by_cases h5 : c4 = ','
                            · rw [if_pos h5] at h ⊢
                              rcases hsw5 : skipWs r6 with _ | ⟨c5, r7⟩ <;>
                                simp only [hsw5] at h
                              · cases h
                              · simp only [skipWs_append_cons hsw5 W]
                                by_cases h6 : c5 = '"'
                                · rw [if_pos h6] at h ⊢
                                  rcases hpm : pValue f ('{' :: c5 :: r7) with _ | ⟨jv, r8⟩ <;>
                                    simp only [hpm] at h
                                  · cases h
                                  · have hgm := ih hpm k W hW
                                    rw [List.cons_append, List.cons_append] at hgm
                                    simp only [hgm]
                                    cases jv with
                                    | obj ms =>
                                      injection h with h1
                                      injection h1 with hj hr
                                      subst hj
                                      subst hr
                                      rfl
                                    | null => simp at h
                                    | bool b => simp at h
                                    | num l => simp at h
                                    | str s => simp at h
                                    | arr es => simp at h
                                · rw [if_neg h6] at h
                                  cases h
                            · by_cases h7 : c4 = '}'
                              · rw [if_neg h5, if_pos h7] at h ⊢
                                injection h with h1
                                injection h1 with hj hr
                                subst hj
                                subst hr
                                rfl
                              · rw [if_neg h5, if_neg h7] at h
                                cases h
                    · rw [if_neg h4] at h
                      cases h
              · rw [if_neg h2, if_neg h3] at h
                cases h
        · by_cases har : c = '['
          · simp only [pValue, if_neg hq, if_neg hob, if_pos har] at h ⊢
            rcases hsw : skipWs rest' with _ | ⟨c2, r2⟩ <;> simp only [hsw] at h
            · cases h
            · simp only [skipWs_append_cons hsw W]
              by_cases h2 : c2 = ']'
              · rw [if_pos h2] at h ⊢
                injection h with h1
                injection h1 with hj hr
                subst hj
                subst hr
                rfl
              · rw [if_neg h2] at h ⊢
                rcases hpv : pValue f (c2 :: r2) with _ | ⟨v, r3⟩ <;> simp only [hpv] at h
                · cases h
                · have hgv := ih hpv k W hW
                  rw [List.cons_append] at hgv
                  simp only [hgv]
                  rcases hsw2 : skipWs r3 with _ | ⟨c3, r4⟩ <;> simp only [hsw2] at h
                  · cases h
                  · simp only [skipWs_append_cons hsw2 W]
                    by_cases h3 : c3 = ','
                    · rw [if_pos h3] at h ⊢
                      rcases hsw3 : skipWs r4 with _ | ⟨c4, r5⟩ <;> simp only [hsw3] at h
                      · cases h
                      · simp only [skipWs_append_cons hsw3 W]
                        by_cases h4 : c4 = ']'
                        · rw [if_pos h4] at h
                          cases h
                        · rw [if_neg h4] at h ⊢
                          rcases hpm : pValue f ('[' :: c4 :: r5) with _ | ⟨jv, r6⟩ <;>
                            simp only [hpm] at h
                          · cases h
                          · have hgm := ih hpm k W hW
                            rw [List.cons_append, List.cons_append] at hgm
                            simp only [hgm]
                            cases jv with
                            | arr vs =>
                              injection h with h1
                              injection h1 with hj hr
                              subst hj
                              subst hr
                              rfl
                            | null => simp at h
                            | bool b => simp at h
                            | num l => simp at h
                            | str s => simp at h
                            | obj ms => simp at h
                    · by_cases h5 : c3 = ']'
                      · rw [if_neg h3, if_pos h5] at h ⊢
                        injection h with h1
                        injection h1 with hj hr
                        subst hj
                        subst hr
                        rfl
                      · rw [if_neg h3, if_neg h5] at h
                        cases h
          · by_cases ht : c = 't'
            · simp only [pValue, if_neg hq, if_neg hob, if_neg har, if_pos ht] at h ⊢
              rcases hel : expectLit ['r', 'u', 'e'] rest' with _ | r <;>
                simp only [hel, Option.map_some', Option.map_none'] at h
              · cases h
              · simp only [expectLit_ext hel W, Option.map_some']
                injection h with h1
                injection h1 with hj hr
                subst hj
                subst hr
                rfl
            · by_cases hf : c = 'f'
              · simp only [pValue, if_neg hq, if_neg hob, if_neg har, if_neg ht,
                  if_pos hf] at h ⊢
                rcases hel : expectLit ['a', 'l', 's', 'e'] rest' with _ | r <;>
                  simp only [hel, Option.map_some', Option.map_none'] at h
                · cases h
                · simp only [expectLit_ext hel W, Option.map_some']
                  injection h with h1
                  injection h1 with hj hr
                  subst hj
                  subst hr
                  rfl
              · by_cases hn : c = 'n'
                · simp only [pValue, if_neg hq, if_neg hob, if_neg har, if_neg ht,
                    if_neg hf, if_pos hn] at h ⊢
                  rcases hel : expectLit ['u', 'l', 'l'] rest' with _ | r <;>
                    simp only [hel, Option.map_some', Option.map_none'] at h
                  · cases h
                  · simp only [expectLit_ext hel W, Option.map_some']
                    injection h with h1
                    injection h1 with hj hr
                    subst hj
                    subst hr
                    rfl
                · by_cases hN : c = 'N'
                  · simp only [pValue, if_neg hq, if_neg hob, if_neg har, if_neg ht,
                      if_neg hf, if_neg hn, if_pos hN] at h ⊢
                    rcases hel : expectLit ['a', 'N'] rest' with _ | r <;>
                      simp only [hel, Option.map_some', Option.map_none'] at h
                    · cases h
                    · simp only [expectLit_ext hel W, Option.map_some']
                      injection h with h1
                      injection h1 with hj hr
                      subst hj
                      subst hr
                      rfl
                  · by_cases hI : c = 'I'
                    · simp only [pValue, if_neg hq, if_neg hob, if_neg har, if_neg ht,
                        if_neg hf, if_neg hn, if_neg hN, if_pos hI] at h ⊢
                      rcases hel : expectLit ['n', 'f', 'i', 'n', 'i', 't', 'y'] rest' with _ | r <;>
                        simp only [hel, Option.map_some', Option.map_none'] at h
                      · cases h
                      · simp only [expectLit_ext hel W, Option.map_some']
                        injection h with h1
                        injection h1 with hj hr
                        subst hj
                        subst hr
                        rfl
                    · by_cases hm : c = '-'
                      · simp only [pValue, if_neg hq, if_neg hob, if_neg har, if_neg ht,
                          if_neg hf, if_neg hn, if_neg hN, if_neg hI, if_pos hm] at h ⊢
                        rcases hpn : pNumber (c :: rest') with _ | ⟨lex, r⟩ <;>
                          simp only [hpn] at h
                        · rcases hel : expectLit ['I', 'n', 'f', 'i', 'n', 'i', 't', 'y'] rest'
                            with _ | r <;>
                            simp only [hel, Option.map_some', Option.map_none'] at h
                          · cases h
                          · have hrest : rest' = ['I', 'n', 'f', 'i', 'n', 'i', 't', 'y'] ++ r :=
                              expectLit_eq hel
                            have hpn2 : pNumber (c :: (rest' ++ W)) = none := by
                              subst hm
                              rw [hrest]
                              simp [pNumber]
                            simp only [hpn2, expectLit_ext hel W, Option.map_some']
                            injection h with h1
                            injection h1 with hj hr
                            subst hj
                            subst hr
                            rfl
                        · have hpn3 := pNumber_ext hW hpn
                          rw [List.cons_append] at hpn3
                          simp only [hpn3]
                          injection h with h1
                          injection h1 with hj hr
                          subst hj
                          subst hr
                          rfl
                      · by_cases hd : c.isDigit = true
                        · simp only [pValue, if_neg hq, if_neg hob, if_neg har, if_neg ht,
                            if_neg hf, if_neg hn, if_neg hN, if_neg hI, if_neg hm,
                            if_pos hd] at h ⊢
                          rcases hpn : pNumber (c :: rest') with _ | ⟨lex, r⟩ <;>
                            simp only [hpn, Option.map_some', Option.map_none'] at h
                          · cases h
                          · have hpn3 := pNumber_ext hW hpn
                            rw [List.cons_append] at hpn3
                            simp only [hpn3, Option.map_some']
                            injection h with h1
                            injection h1 with hj hr
                            subst hj
                            subst hr
                            rfl
                        · simp only [pValue, if_neg hq, if_neg hob, if_neg har, if_neg ht,
                            if_neg hf, if_neg hn, if_neg hN, if_neg hI, if_neg hm,
                            if_neg hd] at h
                          cases h

theorem tailsTo_of_parts {cs lex rest : List Char} (heq : cs = lex ++ rest)
    (hne : lex ≠ []) (hchars : ∀ c ∈ lex, c ≠ btick) : tailsTo cs rest := by
  rcases List.eq_nil_or_concat lex with rfl | ⟨pre, d, rfl⟩
  · exact absurd rfl hne
  · refine ⟨pre, d, ?_, hchars d (by simp)⟩
    rw [heq]
    simp [List.concat_eq_append, List.append_assoc]

theorem pValue_tails : ∀ (f : Nat) {cs : List Char} {j : Json} {rest : List Char},
    pValue f cs = some (j, rest) → tailsTo cs rest := by
  intro f
  induction f with
  | zero => intro cs j rest h; simp [pValue] at h
  | succ f ih =>
    intro cs j rest h
    cases cs with
    | nil => simp [pValue] at h
    | cons c rest' =>
      by_cases hq : c = '"'
      · simp only [pValue, if_pos hq] at h
        rcases Option.map_eq_some'.1 h with ⟨p, hp, hps⟩
        injection hps with h1 h2
        subst h2
        subst hq
        exact tailsTo_cons '"' (pStr_tails f (by rw [hp]))
      · by_cases hob : c = '{'
        · subst hob
          simp only [pValue, if_neg hq, if_pos rfl] at h
          rcases hsw : skipWs rest' with _ | ⟨c2, r2⟩ <;> simp only [hsw] at h
          · cases h
          · have hd1 : rest' = rest'.takeWhile isJWs ++ c2 :: r2 := skipWs_decomp hsw
            have htw1 : ∀ x ∈ rest'.takeWhile isJWs, isJWs x = true := fun x hx =>
              mem_takeWhile_pred hx
            by_cases h2 : c2 = '}'
            · rw [if_pos h2] at h
              injection h with h1
              injection h1 with hj hr
              subst hr
              subst h2
              rw [hd1]
              exact tailsTo_cons '{' (tailsTo_append _ (tailsTo_here (by decide) _))
            · by_cases h3 : c2 = '"'
              · rw [if_neg h2, if_pos h3] at h
                subst h3
                rcases hps : pStr f r2 with _ | ⟨key, r3⟩ <;> simp only [hps] at h
                · cases h
                · obtain ⟨pre2, hpre2, -⟩ := tailsTo_suffix (pStr_tails f hps)
                  rcases hsw2 : skipWs r3 with _ | ⟨c3, r4⟩ <;> simp only [hsw2] at h
                  · cases h
                  · have hd2 : r3 = r3.takeWhile isJWs ++ c3 :: r4 := skipWs_decomp hsw2
                    by_cases h4 : c3 = ':'
                    · subst h4
                      rw [if_pos rfl] at h
                      rcases hsw3 : skipWs r4 with _ | ⟨c5', r5'⟩
                      · rw [hsw3, pValue_nil] at h
                        cases h
                      · rw [hsw3] at h
                        have hd3 : r4 = r4.takeWhile isJWs ++ c5' :: r5' := skipWs_decomp hsw3
                        rcases hpv : pValue f (c5' :: r5') with _ | ⟨v, r5⟩ <;>
                          simp only [hpv] at h
                        · cases h
                        · obtain ⟨preV, hpreV, -⟩ := tailsTo_suffix (ih hpv)
                          rcases hsw4 : skipWs r5 with _ | ⟨c4, r6⟩ <;> simp only [hsw4] at h
                          · cases h
                          · have hd4 : r5 = r5.takeWhile isJWs ++ c4 :: r6 := skipWs_decomp hsw4
                            by_cases h5 : c4 = ','
                            · subst h5
                              rw [if_pos rfl] at h
                              rcases hsw5 : skipWs r6 with _ | ⟨c5, r7⟩ <;>
                                simp only [hsw5] at h
                              · cases h
                              · have hd5 : r6 = r6.takeWhile isJWs ++ c5 :: r7 :=
                                  skipWs_decomp hsw5
                                by_cases h6 : c5 = '"'
                                · subst h6
                                  rw [if_pos rfl] at h
                                  rcases hpm : pValue f ('{' :: '"' :: r7) with _ | ⟨jv, r8⟩ <;>
                                    simp only [hpm] at h
                                  · cases h
                                  · cases jv with
                                    | obj ms =>
                                      injection h with h1
                                      injection h1 with hj hr
                                      subst hr
                                      obtain ⟨preI, dI, heqI, hdI⟩ := ih hpm
                                      rw [hd1, hpre2, hd2, hd3, hpreV, hd4, hd5]
                                      cases preI with
                                      | nil =>
                                        injection heqI with hx hy
                                        rw [← hy]
                                        refine tailsTo_cons '{' (tailsTo_append _
                                          (tailsTo_cons '"' (tailsTo_append _
                                          (tailsTo_append _ (tailsTo_cons ':'
                                          (tailsTo_append _ (tailsTo_append _
                                          (tailsTo_append _ ?_))))))))
                                        exact tailsTo_ws_boundary [] _ ','
                                          (by decide) (fun x hx => mem_takeWhile_pred hx) _
                                      | cons x preI' =>
                                        injection heqI with hx hy
                                        rw [hy]
                                        refine tailsTo_cons '{' (tailsTo_append _
                                          (tailsTo_cons '"' (tailsTo_append _
                                          (tailsTo_append _ (tailsTo_cons ':'
                                          (tailsTo_append _ (tailsTo_append _
                                          (tailsTo_append _ (tailsTo_cons ','
                                          (tailsTo_append _ (tailsTo_append preI'
                                          (tailsTo_here hdI _))))))))))))
                                    | null => simp at h
                                    | bool b => simp at h
                                    | num l => simp at h
                                    | str s => simp at h
                                    | arr es => simp at h
                                · rw [if_neg h6] at h
                                  cases h
                            · by_cases h7 : c4 = '}'
                              · subst h7
                                rw [if_neg h5, if_pos rfl] at h
                                injection h with h1
                                injection h1 with hj hr
                                subst hr
                                rw [hd1, hpre2, hd2, hd3, hpreV, hd4]
                                exact tailsTo_cons '{' (tailsTo_append _
                                  (tailsTo_cons '"' (tailsTo_append _
                                  (tailsTo_append _ (tailsTo_cons ':'
                                  (tailsTo_append _ (tailsTo_append _
                                  (tailsTo_append _ (tailsTo_here (by decide) _)))))))))
                              · rw [if_neg h5, if_neg h7] at h
                                cases h
                    · rw [if_neg h4] at h
                      cases h
              · rw [if_neg h2, if_neg h3] at h
                cases h
        · by_cases har : c = '['
          · subst har
            simp only [pValue, if_neg hq, if_neg hob, if_pos rfl] at h
            rcases hsw : skipWs rest' with _ | ⟨c2, r2⟩ <;> simp only [hsw] at h
            · cases h
            · have hd1 : rest' = rest'.takeWhile isJWs ++ c2 :: r2 := skipWs_decomp hsw
              by_cases h2 : c2 = ']'
              · rw [if_pos h2] at h
                injection h with h1
                injection h1 with hj hr
                subst hr
                subst h2
                rw [hd1]
                exact tailsTo_cons '[' (tailsTo_append _ (tailsTo_here (by decide) _))
              · rw [if_neg h2] at h
                rcases hpv : pValue f (c2 :: r2) with _ | ⟨v, r3⟩ <;> simp only [hpv] at h
                · cases h
                · obtain ⟨preV, hpreV, -⟩ := tailsTo_suffix (ih hpv)
                  rcases hsw2 : skipWs r3 with _ | ⟨c3, r4⟩ <;> simp only [hsw2] at h
                  · cases h
                  · have hd2 : r3 = r3.takeWhile isJWs ++ c3 :: r4 := skipWs_decomp hsw2
                    by_cases h3 : c3 = ','
                    · subst h3
                      rw [if_pos rfl] at h
                      rcases hsw3 : skipWs r4 with _ | ⟨c4, r5⟩ <;> simp only [hsw3] at h
                      · cases h
                      · have hd3 : r4 = r4.takeWhile isJWs ++ c4 :: r5 := skipWs_decomp hsw3
                        by_cases h4 : c4 = ']'
                        · rw [if_pos h4] at h
                          cases h
                        · rw [if_neg h4] at h
                          rcases hpm : pValue f ('[' :: c4 :: r5) with _ | ⟨jv, r6⟩ <;>
                            simp only [hpm] at h
                          · cases h
                          · cases jv with
                            | arr vs =>
                              injection h with h1
                              injection h1 with hj hr
                              subst hr
                              obtain ⟨preI, dI, heqI, hdI⟩ := ih hpm
                              rw [hd1, hpreV, hd2, hd3]
                              cases preI with
                              | nil =>
                                injection heqI with hx hy
                                rw [← hy]
                                refine tailsTo_cons '[' (tailsTo_append _
                                  (tailsTo_append _ (tailsTo_append _ ?_)))
                                exact tailsTo_ws_boundary [] _ ','
                                  (by decide) (fun x hx => mem_takeWhile_pred hx) _
                              | cons x preI' =>
                                injection heqI with hx hy
                                rw [hy]
                                exact tailsTo_cons '[' (tailsTo_append _
                                  (tailsTo_append _ (tailsTo_append _
                                  (tailsTo_cons ',' (tailsTo_append _
                                  (tailsTo_append preI' (tailsTo_here hdI _)))))))
                            | null => simp at h
                            | bool b => simp at h
                            | num l => simp at h
                            | str s => simp at h
                            | obj ms => simp at h
                    · by_cases h5 : c3 = ']'
                      · subst h5
                        rw [if_neg h3, if_pos rfl] at h
                        injection h with h1
                        injection h1 with hj hr
                        subst hr
                        rw [hd1, hpreV, hd2]
                        exact tailsTo_cons '[' (tailsTo_append _ (tailsTo_append _
                          (tailsTo_append _ (tailsTo_here (by decide) _))))
                      · rw [if_neg h3, if_neg h5] at h
                        cases h
          · by_cases ht : c = 't'
            · subst ht
              simp only [pValue, if_neg hq, if_neg hob, if_neg har, if_pos rfl] at h
              rcases hel : expectLit ['r', 'u', 'e'] rest' with _ | r <;>
                simp only [hel, Option.map_some', Option.map_none'] at h
              · cases h
              · injection h with h1
                injection h1 with hj hr
                subst hr
                rw [expectLit_eq hel]
                exact ⟨['t', 'r', 'u'], 'e', rfl, by decide⟩
            · by_cases hf : c = 'f'
              · subst hf
                simp only [pValue, if_neg hq, if_neg hob, if_neg har, if_neg ht,
                  if_pos rfl] at h
                rcases hel : expectLit ['a', 'l', 's', 'e'] rest' with _ | r <;>
                  simp only [hel, Option.map_some', Option.map_none'] at h
                · cases h
                · injection h with h1
                  injection h1 with hj hr
                  subst hr
                  rw [expectLit_eq hel]
                  exact ⟨['f', 'a', 'l', 's'], 'e', rfl, by decide⟩
              · by_cases hn : c = 'n'
                · subst hn
                  simp only [pValue, if_neg hq, if_neg hob, if_neg har, if_neg ht,
                    if_neg hf, if_pos rfl] at h
                  rcases hel : expectLit ['u', 'l', 'l'] rest' with _ | r <;>
                    simp only [hel, Option.map_some', Option.map_none'] at h
                  · cases h
                  · injection h with h1
                    injection h1 with hj hr
                    subst hr
                    rw [expectLit_eq hel]
                    exact ⟨['n', 'u', 'l'], 'l', rfl, by decide⟩
                · by_cases hN : c = 'N'
                  · subst hN
                    simp only [pValue, if_neg hq, if_neg hob, if_neg har, if_neg ht,
                      if_neg hf, if_neg hn, if_pos rfl] at h
                    rcases hel : expectLit ['a', 'N'] rest' with _ | r <;>
                      simp only [hel, Option.map_some', Option.map_none'] at h
                    · cases h
                    · injection h with h1
                      injection h1 with hj hr
                      subst hr
                      rw [expectLit_eq hel]
                      exact ⟨['N', 'a'], 'N', rfl, by decide⟩
                  · by_cases hI : c = 'I'
                    · subst hI
                      simp only [pValue, if_neg hq, if_neg hob, if_neg har, if_neg ht,
                        if_neg hf, if_neg hn, if_neg hN, if_pos rfl] at h
                      rcases hel : expectLit ['n', 'f', 'i', 'n', 'i', 't', 'y'] rest'
                        with _ | r <;>
                        simp only [hel, Option.map_some', Option.map_none'] at h
                      · cases h
                      · injection h with h1
                        injection h1 with hj hr
                        subst hr
                        rw [expectLit_eq hel]
                        exact ⟨['I', 'n', 'f', 'i', 'n', 'i', 't'], 'y', rfl, by decide⟩
                    · by_cases hm : c = '-'
                      · subst hm
                        simp only [pValue, if_neg hq, if_neg hob, if_neg har, if_neg ht,
                          if_neg hf, if_neg hn, if_neg hN, if_neg hI, if_pos rfl] at h
                        rcases hpn : pNumber ('-' :: rest') with _ | ⟨lex, r⟩ <;>
                          simp only [hpn] at h
                        · rcases hel : expectLit ['I', 'n', 'f', 'i', 'n', 'i', 't', 'y'] rest'
                            with _ | r <;>
                            simp only [hel, Option.map_some', Option.map_none'] at h
                          · cases h
                          · injection h with h1
                            injection h1 with hj hr
                            subst hr
                            rw [expectLit_eq hel]
                            exact ⟨['-', 'I', 'n', 'f', 'i', 'n', 'i', 't'], 'y', rfl,
                              by decide⟩
                        · injection h with h1
                          injection h1 with hj hr
                          subst hr
                          obtain ⟨heq, hne, hchars⟩ := pNumber_eq hpn
                          exact tailsTo_of_parts heq hne hchars
                      · by_cases hd : c.isDigit = true
                        · simp only [pValue, if_neg hq, if_neg hob, if_neg har, if_neg ht,
                            if_neg hf, if_neg hn, if_neg hN, if_neg hI, if_neg hm,
                            if_pos hd] at h
                          rcases hpn : pNumber (c :: rest') with _ | ⟨lex, r⟩ <;>
                            simp only [hpn, Option.map_some', Option.map_none'] at h
                          · cases h
                          · injection h with h1
                            injection h1 with hj hr
                            subst hr
                            obtain ⟨heq, hne, hchars⟩ := pNumber_eq hpn
                            exact tailsTo_of_parts heq hne hchars
                        · simp only [pValue, if_neg hq, if_neg hob, if_neg har, if_neg ht,
                            if_neg hf, if_neg hn, if_neg hN, if_neg hI, if_neg hm,
                            if_neg hd] at h
                          cases h

theorem skipWs_wsLead {L : List Char} (hL : ∀ c ∈ L, isJWs c = true) :
    ∀ X : List Char, skipWs (L ++ X) = skipWs X := by
  induction L with
  | nil => intro X; rfl
  | cons c L ih =>
    intro X
    rw [List.cons_append, skipWs, List.dropWhile_cons_of_pos (hL c (by simp))]
    exact ih (fun x hx => hL x (by simp [hx])) X

theorem data_append (s t : String) : (s ++ t).data = s.data ++ t.data := rfl

theorem parseJson_pad {M : List Char} {j : Json} (h : parseJson (String.mk M) = some j)
    {L W : List Char} (hL : ∀ c ∈ L, isJWs c = true) (hW : ∀ c ∈ W, isJWs c = true) :
    parseJson (String.mk (L ++ M ++ W)) = some j := by
  unfold parseJson at h ⊢
  rcases hpv : pValue ((String.mk M).data.length + 1) (skipWs (String.mk M).data)
    with _ | ⟨jr, rest⟩ <;> simp only [hpv] at h
  · cases h
  · by_cases hrest : skipWs rest = []
    · rw [if_pos hrest] at h
      injection h with hj
      subst hj
      rcases hsw : skipWs M with _ | ⟨d, ds⟩
      · rw [show (String.mk M).data = M from rfl, hsw, pValue_nil] at hpv
        cases hpv
      · rw [show (String.mk M).data = M from rfl, hsw] at hpv
        have hsw2 : skipWs (L ++ M ++ W) = d :: (ds ++ W) := by
          rw [List.append_assoc, skipWs_wsLead hL]
          exact skipWs_append_cons hsw W
        have hlen : (L ++ M ++ W).length + 1 = (M.length + 1) + (L.length + W.length) := by
          simp [List.length_append]
          omega
        have hext := pValue_ext (M.length + 1) hpv (L.length + W.length) W hW
        show (match pValue ((L ++ M ++ W).length + 1) (skipWs (L ++ M ++ W)) with
          | some (j, rest) => if skipWs rest = [] then some j else none
          | none => none) = some jr
        rw [hlen, hsw2, show d :: (ds ++ W) = (d :: ds) ++ W from rfl]
        simp only [hext]
        rw [if_pos (skipWs_append_nil hrest hW)]
    · rw [if_neg hrest] at h
      cases h

theorem concat_end_eq {A B : List Char} {x y : Char} (h : A ++ [x] = B ++ [y]) : x = y := by
  have h2 := congrArg List.reverse h
  simp [List.reverse_append] at h2
  exact h2.1

theorem parseJson_no_btick {M : List Char} {j : Json} (h : parseJson (String.mk M) = some j)
    {L : List Char} (hM : M = L ++ [btick]) : False := by
  unfold parseJson at h
  rcases hpv : pValue ((String.mk M).data.length + 1) (skipWs (String.mk M).data)
    with _ | ⟨jr, rest⟩ <;> simp only [hpv] at h
  · cases h
  · by_cases hrest : skipWs rest = []
    · rcases hsw : skipWs M with _ | ⟨d, ds⟩
      · rw [show (String.mk M).data = M from rfl, hsw, pValue_nil] at hpv
        cases hpv
      · rw [show (String.mk M).data = M from rfl, hsw] at hpv
        obtain ⟨pre, e, heq, he⟩ := pValue_tails _ hpv
        have hdec : M = M.takeWhile isJWs ++ (d :: ds) := skipWs_decomp hsw
        set tw := M.takeWhile isJWs with htw
        rw [heq] at hdec
        rcases List.eq_nil_or_concat rest with rfl | ⟨rl, rx, rfl⟩
        · have hform : M = (tw ++ pre) ++ [e] := by
            rw [hdec]
            simp [List.append_assoc]
          exact he (concat_end_eq (hform.symm.trans hM))
        · have hx : isJWs rx = true := by
            have hall := List.dropWhile_eq_nil_iff.1 hrest
            exact hall rx (by simp [List.concat_eq_append])
          have hform : M = (tw ++ pre ++ e :: rl) ++ [rx] := by
            rw [hdec]
            simp [List.concat_eq_append, List.append_assoc]
          have hxb : rx = btick := concat_end_eq (hform.symm.trans hM)
          rw [hxb] at hx
          exact absurd hx (by decide)
    · rw [if_neg hrest] at h
      cases h

theorem pyStripL_cons_ws {w : Char} (hw : isPySpace w = true) (cs : List Char) :
    pyStripL (w :: cs) = pyStripL cs := by
  unfold pyStripL
  rw [List.dropWhile_cons_of_pos hw]

theorem pyStripL_concat_ws {w : Char} (hw : isPySpace w = true) (cs : List Char) :
    pyStripL (cs ++ [w]) = pyStripL cs := by
  unfold pyStripL
  rcases hdw : cs.dropWhile isPySpace with _ | ⟨d, ds⟩
  · have hall : ∀ c ∈ cs, isPySpace c = true := List.dropWhile_eq_nil_iff.1 hdw
    have : (cs ++ [w]).dropWhile isPySpace = [] := by
      apply List.dropWhile_eq_nil_iff.2
      intro c hc
      rcases List.mem_append.1 hc with hc | hc
      · exact hall c hc
      · rw [List.mem_singleton.1 hc]
        exact hw
    simp [this, hdw]
  · rw [dropWhile_append_pos hdw [w]]
    have : (d :: (ds ++ [w])).reverse = w :: (d :: ds).reverse := by
      simp
    rw [this, List.dropWhile_cons_of_pos hw]

theorem pyStripL_ws_left {L : List Char} (hL : ∀ c ∈ L, isPySpace c = true) :
    ∀ cs, pyStripL (L ++ cs) = pyStripL cs := by
  induction L with
  | nil => intro cs; rfl
  | cons w L ih =>
    intro cs
    rw [List.cons_append, pyStripL_cons_ws (hL w (by simp)),
      ih (fun c hc => hL c (by simp [hc]))]

theorem pyStripL_ws_right {W : List Char} (hW : ∀ c ∈ W, isPySpace c = true) :
    ∀ cs, pyStripL (cs ++ W) = pyStripL cs := by
  induction W with
  | nil => intro cs; simp
  | cons w W ih =>
    intro cs
    rw [show cs ++ w :: W = (cs ++ [w]) ++ W by simp,
      ih (fun c hc => hW c (by simp [hc])), pyStripL_concat_ws (hW w (by simp))]

theorem pyStripL_decomp (cs : List Char) :
    ∃ lw tw, cs = lw ++ pyStripL cs ++ tw ∧ (∀ c ∈ lw, isPySpace c = true) ∧
      (∀ c ∈ tw, isPySpace c = true) := by
  refine ⟨cs.takeWhile isPySpace,
    ((cs.dropWhile isPySpace).reverse.takeWhile isPySpace).reverse, ?_, ?_, ?_⟩
  · conv_lhs => rw [← List.takeWhile_append_dropWhile (p := isPySpace) (l := cs)]
    rw [List.append_assoc]
    congr 1
    unfold pyStripL
    conv_lhs => rw [show cs.dropWhile isPySpace =
      ((cs.dropWhile isPySpace).reverse).reverse by simp]
    conv_lhs => rw [← List.takeWhile_append_dropWhile (p := isPySpace)
      (l := (cs.dropWhile isPySpace).reverse)]
    rw [List.reverse_append]
  · intro c hc
    exact mem_takeWhile_pred hc
  · intro c hc
    rw [List.mem_reverse] at hc
    exact mem_takeWhile_pred hc

theorem pyStripL_of_ends {x y : Char} (hx : isPySpace x = false) (hy : isPySpace y = false)
    (mid : List Char) : pyStripL (x :: (mid ++ [y])) = x :: (mid ++ [y]) := by
  unfold pyStripL
  rw [List.dropWhile_cons_of_neg (by simp [hx])]
  rw [show (x :: (mid ++ [y])).reverse = y :: (mid.reverse ++ [x]) by simp]
  rw [List.dropWhile_cons_of_neg (by simp [hy])]
  simp

theorem stripBt_compute {x y : Char} (hx : x ≠ btick) (hy : y ≠ btick) (mid : List Char) :
    stripBt (btick :: btick :: btick :: (x :: (mid ++ [y])) ++
      [btick, btick, btick]) = x :: (mid ++ [y]) := by
  unfold stripBt
  rw [List.cons_append, List.cons_append, List.cons_append,
    List.dropWhile_cons_of_pos (by simp), List.dropWhile_cons_of_pos (by simp),
    List.dropWhile_cons_of_pos (by simp), List.cons_append,
    List.dropWhile_cons_of_neg (by simp [hx])]
  rw [show (x :: (mid ++ [y] ++ [btick, btick, btick])).reverse =
    btick :: btick :: btick :: (y :: (mid.reverse ++ [x])) by simp]
  rw [List.dropWhile_cons_of_pos (by simp), List.dropWhile_cons_of_pos (by simp),
    List.dropWhile_cons_of_pos (by simp), List.dropWhile_cons_of_neg (by simp [hy])]
  simp

theorem startsFence_bt (rest : List Char) :
    startsFence (btick :: btick :: btick :: rest) = true := by
  simp [startsFence]

theorem endsFence_concat {y : Char} (hy : y ≠ btick) (l : List Char) :
    endsFence (l ++ [y]) = false := by
  unfold endsFence
  rw [show (l ++ [y]).reverse = y :: l.reverse by simp]
  rcases l.reverse with _ | ⟨b, _ | ⟨c, rest⟩⟩
  · rfl
  · rfl
  · simp [hy]

theorem endsFence_ends_bt {cs : List Char} (h : endsFence cs = true) :
    ∃ L, cs = L ++ [btick] := by
  unfold endsFence at h
  rcases hrev : cs.reverse with _ | ⟨a, rest⟩
  · rw [hrev] at h
    cases h
  · rw [hrev] at h
    rcases rest with _ | ⟨b, _ | ⟨c, rest2⟩⟩
    · cases h
    · cases h
    · simp only [decide_eq_true_eq] at h
      obtain ⟨rfl, -, -⟩ := h
      refine ⟨rest2.reverse ++ [c, b], ?_⟩
      have : cs = (btick :: b :: c :: rest2).reverse := by
        rw [← hrev]
        simp
      rw [this]
      simp

theorem lowerJsonTag_json (rest : List Char) :
    lowerJsonTag ('j' :: 's' :: 'o' :: 'n' :: rest) = true := by
  simp [lowerJsonTag]

theorem lowerJsonTag_nl (X : List Char) : lowerJsonTag ('\n' :: X) = false := by
  rcases X with _ | ⟨b, _ | ⟨c, _ | ⟨d, rest⟩⟩⟩ <;> simp [lowerJsonTag]

theorem wrapJson_data (T : String) :
    (wrapJson T).data = (btick :: btick :: btick :: 'j' :: 's' :: 'o' :: 'n' :: '\n' :: []) ++
      T.data ++ ('\n' :: btick :: btick :: btick :: []) := by
  have e1 : ("```json\n").data = btick :: btick :: btick :: 'j' :: 's' :: 'o' :: 'n' :: '\n' :: [] := rfl
  have e2 : ("\n```").data = '\n' :: btick :: btick :: btick :: [] := rfl
  rw [wrapJson, data_append, data_append, e1, e2]

theorem wrapNoTag_data (T : String) :
    (wrapNoTag T).data = (btick :: btick :: btick :: '\n' :: []) ++
      T.data ++ ('\n' :: btick :: btick :: btick :: []) := by
  have e1 : ("```\n").data = btick :: btick :: btick :: '\n' :: [] := rfl
  have e2 : ("\n```").data = '\n' :: btick :: btick :: btick :: [] := rfl
  rw [wrapNoTag, data_append, data_append, e1, e2]

theorem cleanL_wrapJson (T : String)
    (hef : endsFence (pyStripL T.data) = false) :
    cleanL (wrapJson T).data = pyStripL T.data := by
  have h0 : pyStripL ((wrapJson T).data) = (wrapJson T).data := by
    rw [wrapJson_data]
    rw [show (btick :: btick :: btick :: 'j' :: 's' :: 'o' :: 'n' :: '\n' :: []) ++
      T.data ++ ('\n' :: btick :: btick :: btick :: []) =
      btick :: ((btick :: btick :: 'j' :: 's' :: 'o' :: 'n' :: '\n' :: T.data ++
        ['\n', btick, btick]) ++ [btick]) by simp]
    exact pyStripL_of_ends (by decide) (by decide) _
  have h2 : stripBt ((wrapJson T).data) =
      'j' :: (('s' :: 'o' :: 'n' :: '\n' :: T.data) ++ ['\n']) := by
    rw [wrapJson_data]
    rw [show (btick :: btick :: btick :: 'j' :: 's' :: 'o' :: 'n' :: '\n' :: []) ++
      T.data ++ ('\n' :: btick :: btick :: btick :: []) =
      btick :: btick :: btick :: ('j' :: (('s' :: 'o' :: 'n' :: '\n' :: T.data) ++ ['\n'])) ++
        [btick, btick, btick] by simp]
    exact stripBt_compute (by decide) (by decide) _
  have h5 : pyStripL ('\n' :: (T.data ++ ['\n'])) = pyStripL T.data := by
    rw [pyStripL_cons_ws (by decide), pyStripL_concat_ws (by decide)]
  unfold cleanL
  rw [h0]
  dsimp only
  rw [show startsFence ((wrapJson T).data) = true by
    rw [wrapJson_data]; rfl]
  simp only [if_true]
  rw [h2]
  rw [show 'j' :: (('s' :: 'o' :: 'n' :: '\n' :: T.data) ++ ['\n']) =
    'j' :: 's' :: 'o' :: 'n' :: ('\n' :: (T.data ++ ['\n'])) by simp]
  rw [lowerJsonTag_json]
  simp only [if_true, List.drop_succ_cons, List.drop_zero]
  rw [h5, hef]
  simp

theorem cleanL_wrapNoTag (T : String) :
    cleanL (wrapNoTag T).data = '\n' :: (T.data ++ ['\n']) := by
  have h0 : pyStripL ((wrapNoTag T).data) = (wrapNoTag T).data := by
    rw [wrapNoTag_data]
    rw [show (btick :: btick :: btick :: '\n' :: []) ++
      T.data ++ ('\n' :: btick :: btick :: btick :: []) =
      btick :: ((btick :: btick :: '\n' :: T.data ++ ['\n', btick, btick]) ++ [btick]) by simp]
    exact pyStripL_of_ends (by decide) (by decide) _
  have h2 : stripBt ((wrapNoTag T).data) = '\n' :: (T.data ++ ['\n']) := by
    rw [wrapNoTag_data]
    rw [show (btick :: btick :: btick :: '\n' :: []) ++
      T.data ++ ('\n' :: btick :: btick :: btick :: []) =
      btick :: btick :: btick :: ('\n' :: (T.data ++ ['\n'])) ++
        [btick, btick, btick] by simp]
    exact stripBt_compute (by decide) (by decide) _
  have hef : endsFence ('\n' :: (T.data ++ ['\n'])) = false := by
    rw [show '\n' :: (T.data ++ ['\n']) = ('\n' :: T.data) ++ ['\n'] by simp]
    exact endsFence_concat (by decide) _
  unfold cleanL
  rw [h0]
  dsimp only
  rw [show startsFence ((wrapNoTag T).data) = true by
    rw [wrapNoTag_data]; rfl]
  simp only [if_true]
  rw [h2, lowerJsonTag_nl]
  simp only [Bool.false_eq_true, if_false]
  rw [hef]
  simp

theorem cleanL_of_no_fence {T : String} (hf : startsFence (pyStripL T.data) = false) :
    cleanL T.data = pyStripL T.data := by
  unfold cleanL
  dsimp only
  rw [hf]
  simp

/-- Claim C4 (amended): for every completion text `T` whose trimmed form
does not itself begin with a triple-backtick fence and whose whitespace is
limited to the JSON whitespace characters (space, tab, CR, LF — excluding
vertical tab and form feed, which `str.strip()` removes but `json.loads`
rejects), if `T` parses then wrapping `T` in a fenced block with or without
a `json` language tag parses to the same value.  Both amendments are forced
by the counterexample. -/
theorem claim_C4_round_trip (T : String) (j : Json)
    (hfence : startsFence (pyStripL T.data) = false)
    (hws : ∀ c ∈ T.data, isPySpace c = true → isJWs c = true)
    (hp : parse_completion T = some j) :
    parse_completion (wrapJson T) = some j ∧ parse_completion (wrapNoTag T) = some j := by
  have hp' : parseJson (String.mk (pyStripL T.data)) = some j := by
    have := hp
    unfold parse_completion clean_ai_response at this
    rwa [cleanL_of_no_fence hfence] at this
  constructor
  · have hef : endsFence (pyStripL T.data) = false := by
      by_cases hef : endsFence (pyStripL T.data) = true
      · obtain ⟨L, hL⟩ := endsFence_ends_bt hef
        exact absurd (parseJson_no_btick hp' hL) (by simp)
      · simpa using hef
    unfold parse_completion clean_ai_response
    rw [cleanL_wrapJson T hef]
    exact hp'
  · obtain ⟨lw, tw, hdec, hlw, htw⟩ := pyStripL_decomp T.data
    have hlwJ : ∀ c ∈ '\n' :: lw, isJWs c = true := by
      intro c hc
      rcases List.mem_cons.1 hc with rfl | hc
      · decide
      · exact hws c (by rw [hdec]; simp [hc]) (hlw c hc)
    have htwJ : ∀ c ∈ tw ++ ['\n'], isJWs c = true := by
      intro c hc
      rcases List.mem_append.1 hc with hc | hc
      · exact hws c (by rw [hdec]; simp [hc]) (htw c hc)
      · rw [List.mem_singleton.1 hc]
        decide
    unfold parse_completion clean_ai_response
    rw [cleanL_wrapNoTag T]
    rw [show '\n' :: (T.data ++ ['\n']) =
      ('\n' :: lw) ++ pyStripL T.data ++ (tw ++ ['\n']) by
        conv_lhs => rw [hdec]
        simp [List.append_assoc]]
    exact parseJson_pad hp' hlwJ htwJ

theorem matchTopicAt_nil : matchTopicAt [] = none := rfl

theorem matchTopicAt_nonempty {cs : List Char} {g : String}
    (h : matchTopicAt cs = some g) : g ≠ "" := by
  unfold matchTopicAt at h
  rcases hel : expectLit ['t', 'o', 'p', 'i', 'c', '_', 'n', 'a', 'm', 'e'] cs
    with _ | r1 <;> simp only [hel] at h
  · cases h
  · rcases hdw : r1.dropWhile isPySpace with _ | ⟨c1, r3⟩ <;> simp only [hdw] at h
    · cases h
    · by_cases he : c1 = '='
      · rw [if_pos he] at h
        rcases hdw2 : r3.dropWhile isPySpace with _ | ⟨q, r5⟩ <;> simp only [hdw2] at h
        · cases h
        · by_cases hq : q = '"' ∨ q = squote
          · rw [if_pos hq] at h
            rcases hdw3 : r5.dropWhile (fun c => decide (¬ (c = '"' ∨ c = squote)))
              with _ | ⟨q2, r6⟩ <;> simp only [hdw3] at h
            · cases h
            · by_cases hg : r5.takeWhile (fun c => decide (¬ (c = '"' ∨ c = squote))) = []
              · rw [if_pos hg] at h
                cases h
              · rw [if_neg hg] at h
                injection h with h1
                subst h1
                intro heq
                exact hg (congrArg String.data heq)
          · rw [if_neg hq] at h
            cases h
      · rw [if_neg he] at h
        cases h

theorem searchTopic_nonempty :
    ∀ {cs : List Char} {g : String}, searchTopic cs = some g → g ≠ "" := by
  intro cs
  induction cs with
  | nil => intro g h; cases h
  | cons c cs ih =>
    intro g h
    unfold searchTopic at h
    rcases hm : matchTopicAt (c :: cs) with _ | g2 <;> simp only [hm] at h
    · exact ih h
    · injection h with h1
      subst h1
      exact matchTopicAt_nonempty hm

theorem searchTopic_none_iff :
    ∀ cs : List Char, searchTopic cs = none ↔ ∀ i, matchTopicAt (cs.drop i) = none := by
  intro cs
  induction cs with
  | nil =>
    constructor
    · intro _ i
      rw [List.drop_nil]
      rfl
    · intro _
      rfl
  | cons c cs ih =>
    constructor
    · intro h i
      unfold searchTopic at h
      rcases hm : matchTopicAt (c :: cs) with _ | g2 <;> simp only [hm] at h
      · cases i with
        | zero => exact hm
        | succ i => exact (ih.1 h) i
      · cases h
    · intro h
      unfold searchTopic
      rw [show matchTopicAt (c :: cs) = none from h 0]
      exact ih.2 (fun i => h (i + 1))

theorem searchTopic_first :
    ∀ (n : Nat) (cs : List Char) (g : String),
      (∀ i, i < n → matchTopicAt (cs.drop i) = none) →
      matchTopicAt (cs.drop n) = some g → searchTopic cs = some g := by
  intro n
  induction n with
  | zero =>
    intro cs g _ hit
    rw [List.drop_zero] at hit
    cases cs with
    | nil => rw [matchTopicAt_nil] at hit; cases hit
    | cons c cs =>
      unfold searchTopic
      rw [hit]
  | succ n ih =>
    intro cs g hnone hit
    cases cs with
    | nil =>
      rw [List.drop_nil, matchTopicAt_nil] at hit
      cases hit
    | cons c cs =>
      unfold searchTopic
      rw [show matchTopicAt (c :: cs) = none from hnone 0 (Nat.succ_pos n)]
      exact ih cs g (fun i hi => hnone (i + 1) (Nat.succ_lt_succ hi)) hit

theorem matchTopicAt_orders (post : List Char) :
    matchTopicAt (("topic_name = \"orders\"").data ++ post) = some ("orders") := rfl

/-- Claim C7 (amended): `extract_topic_from_code` returns `none` exactly
when no position of the code matches the quoted `topic_name` assignment
pattern; and a code string containing `topic_name = "orders"` yields
`"orders"` provided no earlier position already matches — the amendment
adds the first-match proviso forced by the counterexample, since
`re.search` returns the leftmost match. -/
theorem claim_C7_extractor :
    (∀ code : String, extract_topic_from_code code = none ↔
      ∀ i, i < code.data.length → matchTopicAt (code.data.drop i) = none) ∧
    (∀ pre post : List Char,
      (∀ i, i < pre.length →
        matchTopicAt ((pre ++ ("topic_name = \"orders\"").data ++ post).drop i) = none) →
      extract_topic_from_code (String.mk (pre ++ ("topic_name = \"orders\"").data ++ post)) =
        some ("orders")) := by
  constructor
  · intro code
    unfold extract_topic_from_code
    rw [searchTopic_none_iff]
    constructor
    · intro h i _
      exact h i
    · intro h i
      by_cases hi : i < code.data.length
      · exact h i hi
      · rw [List.drop_eq_nil_of_le (Nat.le_of_not_lt hi), matchTopicAt_nil]
  · intro pre post hnone
    unfold extract_topic_from_code
    apply searchTopic_first pre.length _ _ hnone
    show matchTopicAt ((pre ++ ("topic_name = \"orders\"").data ++ post).drop pre.length) =
      some ("orders")
    rw [List.append_assoc, List.drop_left]
    exact matchTopicAt_orders post

/-- Claim C7 counterexample: when an earlier `topic_name = 'a'` assignment
precedes `topic_name = "orders"`, the extractor returns `"a"`, not
`"orders"`, although the code contains the latter assignment. -/
theorem claim_C7_cex :
    extract_topic_from_code ("topic_name = \x27a\x27\ntopic_name = \"orders\"") = some ("a") ∧
    some ("a") ≠ some ("orders") := by
  constructor
  · rfl
  · decide

/-- Witness for C7: code with no assignment yields `none`; code whose first
assignment is `topic_name = "orders"` yields `"orders"`. -/
theorem claim_C7_witness :
    extract_topic_from_code ("print(1)") = none ∧
    extract_topic_from_code (String.mk (("x = 1\n").data ++
      ("topic_name = \"orders\"").data ++ ("\nprint(2)").data)) = some ("orders") :=
  ⟨(claim_C7_extractor.1 ("print(1)")).mpr (by decide),
    claim_C7_extractor.2 _ _ (by decide)⟩

theorem httpExcStr_500 (d : String) : httpExcStr 500 d = ("500: ") ++ d := rfl

theorem run_ok_of_not_base {execSem : String → ExecBehavior} {code : String}
    (hnb : ∀ b, execSem code ≠ ExecBehavior.baseExn b) :
    ∃ s, run_code_safely execSem code = Except.ok s := by
  unfold run_code_safely
  cases hb : execSem code with
  | ok out res => exact ⟨_, rfl⟩
  | exn m => exact ⟨_, rfl⟩
  | baseExn m => exact absurd hb (hnb m)

theorem topicWrite_ne {x : Option String} {t : String} (h : topicWrite x = some t) :
    t ≠ "" := by
  cases x with
  | none => cases h
  | some s =>
    simp only [topicWrite] at h
    by_cases hs : s = ""
    · rw [if_pos hs] at h
      cases h
    · rw [if_neg hs] at h
      injection h with h1
      subst h1
      exact hs

theorem kafka_agent_mem_spec (es : String → ExecBehavior)
    (complete : Option String → Except String String) (prompt : String)
    (mem : Option String) :
    (kafka_agent es complete prompt mem).2 =
      applyWrite (topicWriteEvent es complete mem) mem ∧
    ((∃ p, (kafka_agent es complete prompt mem).1 = AgentOutcome.success p) ∨
      topicWriteEvent es complete mem = none) := by
  unfold kafka_agent topicWriteEvent
  cases hc : complete mem with
  | error e => exact ⟨rfl, Or.inr rfl⟩
  | ok raw =>
    dsimp only
    cases hp : parseJson (clean_ai_response raw) with
    | none => exact ⟨rfl, Or.inr rfl⟩
    | some ai =>
      cases ai with
      | obj kvs =>
        dsimp only
        by_cases hf : pyFalsy ((pyGet kvs ("code")).getD Json.null) = true
        · rw [if_pos hf, if_pos hf]
          exact ⟨rfl, Or.inr rfl⟩
        · rw [if_neg hf, if_neg hf]
          cases hcj : (pyGet kvs ("code")).getD Json.null with
          | str code =>
            dsimp only
            cases hr : run_code_safely es code with
            | error b => exact ⟨rfl, Or.inr rfl⟩
            | ok result => exact ⟨rfl, Or.inl ⟨_, rfl⟩⟩
          | null => exact ⟨rfl, Or.inr rfl⟩
          | bool b => exact ⟨rfl, Or.inr rfl⟩
          | num l => exact ⟨rfl, Or.inr rfl⟩
          | arr es2 => exact ⟨rfl, Or.inr rfl⟩
          | obj kvs2 => exact ⟨rfl, Or.inr rfl⟩
      | null => exact ⟨rfl, Or.inr rfl⟩
      | bool b => exact ⟨rfl, Or.inr rfl⟩
      | num l => exact ⟨rfl, Or.inr rfl⟩
      | str s => exact ⟨rfl, Or.inr rfl⟩
      | arr es2 => exact ⟨rfl, Or.inr rfl⟩

/-- Claim C1 (amended): for every input string, when the executed code either
terminates normally or raises an ordinary `Exception`, `run_code_safely`
returns a string without raising, and on a failure the string carries the
prefix `Error while executing AI code: `.  The amendment excludes a raised
`BaseException` that is not an `Exception` (such as `SystemExit`), which
`except Exception` does not catch — see the counterexample. -/
theorem claim_C1_no_raise (execSem : String → ExecBehavior) (code : String)
    (hnb : ∀ b, execSem code ≠ ExecBehavior.baseExn b) :
    ∃ s : String, run_code_safely execSem code = Except.ok s ∧
      ∀ m, execSem code = ExecBehavior.exn m →
        s = ("Error while executing AI code: ") ++ m := by
  cases hb : execSem code with
  | ok out res =>
    refine ⟨_, by unfold run_code_safely; rw [hb], ?_⟩
    intro m hm
    cases hm
  | exn m =>
    refine ⟨("Error while executing AI code: ") ++ m, by unfold run_code_safely; rw [hb], ?_⟩
    intro m2 hm
    injection hm with h1
    rw [h1]
  | baseExn m => exact absurd hb (hnb m)

/-- Claim C1 counterexample: code raising `SystemExit` (a `BaseException`
that is not an `Exception`) escapes `run_code_safely`, so the function does
not return a string for every input. -/
theorem claim_C1_cex :
    run_code_safely (fun _ => ExecBehavior.baseExn ("SystemExit")) ("raise SystemExit") =
      Except.error ("SystemExit") := rfl

/-- Witness for C1: the amended theorem applied to code whose execution
raises the `Exception` `division by zero`. -/
theorem claim_C1_witness :
    ∃ s : String, run_code_safely (fun _ => ExecBehavior.exn ("division by zero")) ("1/0") =
      Except.ok s ∧
      ∀ m, (fun (_ : String) => ExecBehavior.exn ("division by zero")) ("1/0") =
        ExecBehavior.exn m → s = ("Error while executing AI code: ") ++ m :=
  claim_C1_no_raise (fun _ => ExecBehavior.exn ("division by zero")) ("1/0")
    (fun _ h => ExecBehavior.noConfusion h)

/-- Claim C2 (amended): on successful execution `run_code_safely` returns
the captured standard output stripped of leading and trailing whitespace
when that stripped text is non-empty — printed output takes precedence over
the `result` variable — and otherwise the string form of `result` when
defined, else the literal `<no result>`.  The amendment records that the
captured text is whitespace-stripped before both the emptiness test and the
return (`buffer.getvalue().strip() or ...`). -/
theorem claim_C2_success_output (execSem : String → ExecBehavior) (code : String)
    (out : String) (res : Option String) (hb : execSem code = ExecBehavior.ok out res) :
    (pyStripS out ≠ "" → run_code_safely execSem code = Except.ok (pyStripS out)) ∧
    (pyStripS out = "" → run_code_safely execSem code =
      Except.ok (match res with | some r => r | none => ("<no result>"))) := by
  constructor
  · intro h
    simp only [run_code_safely, hb]
    rw [if_neg h]
  · intro h
    simp only [run_code_safely, hb]
    rw [if_pos h]
    cases res <;> rfl

/-- Claim C2 counterexample: `print("42")` captures `"42\n"`, which is
non-empty, yet `run_code_safely` returns the stripped `"42"`, not the
captured text itself as the claim states. -/
theorem claim_C2_cex :
    run_code_safely (fun _ => ExecBehavior.ok ("42\n") (some ("7"))) ("print(\"42\")") ≠
      Except.ok ("42\n") ∧
    run_code_safely (fun _ => ExecBehavior.ok ("42\n") (some ("7"))) ("print(\"42\")") =
      Except.ok ("42") := by
  constructor
  · intro h
    injection h with h1
    cases congrArg String.data h1
  · rfl

/-- Witness for C2: the amended theorem applied to a print with surrounding
whitespace, a silent `result = 7`, and code with neither. -/
theorem claim_C2_witness :
    run_code_safely (fun _ => ExecBehavior.ok (" 42\n") (some ("7"))) ("print(42)") =
      Except.ok ("42") ∧
    run_code_safely (fun _ => ExecBehavior.ok ("") (some ("7"))) ("result = 7") =
      Except.ok ("7") ∧
    run_code_safely (fun _ => ExecBehavior.ok ("") none) ("x = 1") =
      Except.ok ("<no result>") :=
  ⟨((claim_C2_success_output (fun _ => ExecBehavior.ok (" 42\n") (some ("7")))
      ("print(42)") (" 42\n") (some ("7")) rfl).1 (by decide)).trans (by rfl),
    ((claim_C2_success_output (fun _ => ExecBehavior.ok ("") (some ("7")))
      ("result = 7") ("") (some ("7")) rfl).2 (by rfl)).trans (by rfl),
    ((claim_C2_success_output (fun _ => ExecBehavior.ok ("") none)
      ("x = 1") ("") none rfl).2 (by rfl)).trans (by rfl)⟩

theorem kafka_agent_success_path (es : String → ExecBehavior)
    (complete : Option String → Except String String) (prompt : String)
    (mem : Option String) (raw : String) (kvs : List (String × Json)) (code : String)
    (hc : complete mem = Except.ok raw)
    (hp : parseJson (clean_ai_response raw) = some (Json.obj kvs))
    (hcode : pyGet kvs ("code") = some (Json.str code))
    (hne : code ≠ "") :
    kafka_agent es complete prompt mem =
      (match run_code_safely es code with
       | Except.error b => (AgentOutcome.uncaught b, mem)
       | Except.ok result =>
         (AgentOutcome.success
           { prompt := prompt,
             topic_in_use := applyWrite (topicWrite (extract_topic_from_code code)) mem,
             explanation := (pyGet kvs ("explanation")).getD (Json.str ("")),
             executed_code := code, result := result },
          applyWrite (topicWrite (extract_topic_from_code code)) mem)) := by
  have hfal : pyFalsy (Json.str code) = false := by
    simp [pyFalsy, hne]
  unfold kafka_agent
  simp only [hc, hp, hcode, Option.getD_some, hfal, Bool.false_eq_true, if_false]

/-- Claim C3: for every request handled to success whose generated code
contains a quoted `topic_name` assignment, the payload's `topic_in_use`
equals the extracted literal, the memory slot ends at that value, and any
subsequent request reads that same value as the remembered topic passed to
generation. -/
theorem claim_C3_topic_memory (es : String → ExecBehavior)
    (complete : Option String → Except String String) (prompt : String)
    (mem : Option String) (raw : String) (kvs : List (String × Json)) (code t : String)
    (hc : complete mem = Except.ok raw)
    (hp : parseJson (clean_ai_response raw) = some (Json.obj kvs))
    (hcode : pyGet kvs ("code") = some (Json.str code))
    (hne : code ≠ "")
    (hnb : ∀ b, es code ≠ ExecBehavior.baseExn b)
    (hex : extract_topic_from_code code = some t) :
    (∃ p, (kafka_agent es complete prompt mem).1 = AgentOutcome.success p ∧
      p.topic_in_use = some t) ∧
    (kafka_agent es complete prompt mem).2 = some t ∧
    (∀ es2 complete2 prompt2,
      kafka_agent es2 complete2 prompt2 ((kafka_agent es complete prompt mem).2) =
        kafka_agent es2 complete2 prompt2 (some t)) := by
  have ht : t ≠ "" := searchTopic_nonempty hex
  have hwrite : applyWrite (topicWrite (extract_topic_from_code code)) mem = some t := by
    rw [hex]
    simp only [topicWrite]
    rw [if_neg ht]
    rfl
  obtain ⟨s, hs⟩ := run_ok_of_not_base hnb
  rw [kafka_agent_success_path es complete prompt mem raw kvs code hc hp hcode hne, hs]
  dsimp only
  rw [hwrite]
  exact ⟨⟨_, rfl, rfl⟩, rfl, fun _ _ _ => rfl⟩

/-- Claim C5: a completion parsing to a JSON object whose `code` key is
missing or empty fails the request with the HTTP 500 detail
`500: AI did not return code` (the handler re-wraps the inner
`HTTPException` via `str`), leaving the memory slot unchanged; and on every
request that does not reach a success payload the memory slot is left
exactly as it was. -/
theorem claim_C5_missing_code :
    (∀ (es : String → ExecBehavior) (complete : Option String → Except String String)
        (prompt : String) (mem : Option String) (raw : String) (kvs : List (String × Json)),
      complete mem = Except.ok raw →
      parseJson (clean_ai_response raw) = some (Json.obj kvs) →
      (pyGet kvs ("code") = none ∨ pyGet kvs ("code") = some (Json.str (""))) →
      kafka_agent es complete prompt mem =
        (AgentOutcome.httpError (("500: AI did not return code")), mem)) ∧
    (∀ (es : String → ExecBehavior) (complete : Option String → Except String String)
        (prompt : String) (mem : Option String),
      (∃ p, (kafka_agent es complete prompt mem).1 = AgentOutcome.success p) ∨
      (kafka_agent es complete prompt mem).2 = mem) := by
  constructor
  · intro es complete prompt mem raw kvs hc hp hmiss
    have hfal : pyFalsy ((pyGet kvs ("code")).getD Json.null) = true := by
      rcases hmiss with h | h <;> rw [h]
      · rfl
      · simp [pyFalsy]
    unfold kafka_agent
    simp only [hc, hp, hfal, if_true]
    rw [httpExcStr_500]
    rfl
  · intro es complete prompt mem
    obtain ⟨hmem, hsucc | hnone⟩ := kafka_agent_mem_spec es complete prompt mem
    · exact Or.inl hsucc
    · refine Or.inr ?_
      rw [hmem, hnone]
      rfl

/-- Witness for C5: a completion with only an `explanation` key, and a
failing completion call. -/
theorem claim_C5_witness :
    kafka_agent (fun _ => ExecBehavior.ok ("") none)
      (fun _ => Except.ok ("\x7b\"explanation\": \"no code here\"\x7d")) ("p") (some ("t0")) =
      (AgentOutcome.httpError (("500: AI did not return code")), some ("t0")) ∧
    ((∃ p, (kafka_agent (fun _ => ExecBehavior.ok ("") none)
        (fun _ => Except.error ("auth failed")) ("p") (some ("t0"))).1 =
          AgentOutcome.success p) ∨
      (kafka_agent (fun _ => ExecBehavior.ok ("") none)
        (fun _ => Except.error ("auth failed")) ("p") (some ("t0"))).2 = some ("t0")) :=
  ⟨claim_C5_missing_code.1 _ _ _ _ _ _ rfl (by rfl) (Or.inl (by rfl)),
    claim_C5_missing_code.2 _ _ _ _⟩

/-- Claim C6 (amended): a fault raised as an ordinary `Exception` while
running the generated code is not fatal to the request — the handler still
returns a success payload whose `result` field carries the execution-error
description, with prompt, explanation, executed code and the possibly
updated remembered topic intact.  The amendment excludes a `BaseException`
that is not an `Exception`, which escapes both the sandbox and the
handler's `except Exception` — see the counterexample. -/
theorem claim_C6_exec_fault_not_fatal (es : String → ExecBehavior)
    (complete : Option String → Except String String) (prompt : String)
    (mem : Option String) (raw : String) (kvs : List (String × Json)) (code m : String)
    (hc : complete mem = Except.ok raw)
    (hp : parseJson (clean_ai_response raw) = some (Json.obj kvs))
    (hcode : pyGet kvs ("code") = some (Json.str code))
    (hne : code ≠ "")
    (hexn : es code = ExecBehavior.exn m) :
    ∃ p, (kafka_agent es complete prompt mem).1 = AgentOutcome.success p ∧
      p.result = ("Error while executing AI code: ") ++ m ∧
      p.prompt = prompt ∧
      p.executed_code = code ∧
      p.explanation = (pyGet kvs ("explanation")).getD (Json.str ("")) ∧
      p.topic_in_use = (kafka_agent es complete prompt mem).2 := by
  have hrun : run_code_safely es code =
      Except.ok (("Error while executing AI code: ") ++ m) := by
    unfold run_code_safely
    rw [hexn]
  rw [kafka_agent_success_path es complete prompt mem raw kvs code hc hp hcode hne, hrun]
  exact ⟨_, rfl, rfl, rfl, rfl, rfl, rfl⟩

/-- Claim C6 counterexample: generated code raising `SystemExit` makes the
fault escape the handler instead of producing a 200 payload. -/
theorem claim_C6_cex :
    kafka_agent (fun _ => ExecBehavior.baseExn ("SystemExit"))
      (fun _ => Except.ok ("\x7b\"code\": \"import sys; sys.exit()\"\x7d")) ("p") none =
      (AgentOutcome.uncaught ("SystemExit"), none) := rfl

/-- Witness for C6: the amended theorem applied to a request whose code
raises `division by zero`. -/
theorem claim_C6_witness :
    ∃ p, (kafka_agent (fun _ => ExecBehavior.exn ("division by zero"))
        (fun _ => Except.ok ("\x7b\"code\": \"topic_name = \x27t1\x27\", \"explanation\": \"e\"\x7d"))
        ("my prompt") none).1 = AgentOutcome.success p ∧
      p.result = ("Error while executing AI code: ") ++ ("division by zero") ∧
      p.prompt = ("my prompt") ∧
      p.executed_code = ("topic_name = \x27t1\x27") ∧
      p.explanation = (pyGet [(("code"), Json.str ("topic_name = \x27t1\x27")),
        (("explanation"), Json.str ("e"))] ("explanation")).getD (Json.str ("")) ∧
      p.topic_in_use = (kafka_agent (fun _ => ExecBehavior.exn ("division by zero"))
        (fun _ => Except.ok ("\x7b\"code\": \"topic_name = \x27t1\x27\", \"explanation\": \"e\"\x7d"))
        ("my prompt") none).2 :=
  claim_C6_exec_fault_not_fatal _ _ _ _ _ _ _ _ rfl (by rfl) (by rfl) (by decide) rfl

/-- Claim C8: when the cleaned completion text fails to decode as JSON the
request fails with an HTTP 500 error whose detail contains the cleaned text
verbatim (as `500: AI response was not valid JSON: <cleaned>`), and the
memory slot is unchanged. -/
theorem claim_C8_invalid_json_surfaced (es : String → ExecBehavior)
    (complete : Option String → Except String String) (prompt : String)
    (mem : Option String) (raw : String)
    (hc : complete mem = Except.ok raw)
    (hp : parseJson (clean_ai_response raw) = none) :
    (kafka_agent es complete prompt mem).1 =
      AgentOutcome.httpError
        (("500: AI response was not valid JSON: ") ++ clean_ai_response raw) ∧
    (∃ a b : String, ("500: AI response was not valid JSON: ") ++ clean_ai_response raw =
      a ++ clean_ai_response raw ++ b) ∧
    (kafka_agent es complete prompt mem).2 = mem := by
  refine ⟨?_, ?_, ?_⟩
  · unfold kafka_agent
    simp only [hc, hp]
    rw [httpExcStr_500]
    show AgentOutcome.httpError (("500: ") ++ (("AI response was not valid JSON: ") ++
      clean_ai_response raw)) = _
    rw [← String.append_assoc]
    rfl
  · refine ⟨("500: AI response was not valid JSON: "), (""), ?_⟩
    rw [String.append_empty]
  · unfold kafka_agent
    simp only [hc, hp]

/-- Witness for C8: the completion text `not json`. -/
theorem claim_C8_witness :
    (kafka_agent (fun _ => ExecBehavior.ok ("") none)
      (fun _ => Except.ok ("not json")) ("p") none).1 =
      AgentOutcome.httpError
        (("500: AI response was not valid JSON: ") ++ clean_ai_response ("not json")) ∧
    (∃ a b : String, ("500: AI response was not valid JSON: ") ++
      clean_ai_response ("not json") = a ++ clean_ai_response ("not json") ++ b) ∧
    (kafka_agent (fun _ => ExecBehavior.ok ("") none)
      (fun _ => Except.ok ("not json")) ("p") none).2 = none :=
  claim_C8_invalid_json_surfaced _ _ _ _ _ rfl (by rfl)

/-- Claim C9: the memory slot update of a request is exactly the blind
overwrite `applyWrite` of its topic write event, which depends only on the
request's own completion and code; hence for two concurrent requests whose
events are `some ta` and `some tb`, the shared slot ends at the value of
whichever write completes last, independent of arrival order or of the
memory snapshots each request read. -/
theorem claim_C9_last_writer_wins :
    (∀ (es : String → ExecBehavior) (complete : Option String → Except String String)
        (prompt : String) (mem : Option String),
      (kafka_agent es complete prompt mem).2 =
        applyWrite (topicWriteEvent es complete mem) mem) ∧
    (∀ (es1 : String → ExecBehavior) (g1 : Option String → Except String String)
        (r1 : Option String) (es2 : String → ExecBehavior)
        (g2 : Option String → Except String String) (r2 : Option String)
        (ta tb : String) (m0 : Option String),
      topicWriteEvent es1 g1 r1 = some ta →
      topicWriteEvent es2 g2 r2 = some tb →
      applyWrite (topicWriteEvent es2 g2 r2)
        (applyWrite (topicWriteEvent es1 g1 r1) m0) = some tb ∧
      applyWrite (topicWriteEvent es1 g1 r1)
        (applyWrite (topicWriteEvent es2 g2 r2) m0) = some ta) := by
  constructor
  · intro es complete prompt mem
    exact (kafka_agent_mem_spec es complete prompt mem).1
  · intro es1 g1 r1 es2 g2 r2 ta tb m0 h1 h2
    rw [h1, h2]
    exact ⟨rfl, rfl⟩

/-- Witness for C9: two requests extracting topics `a` and `b`; completing
`a` then `b` leaves `b`, the reverse order leaves `a`. -/
theorem claim_C9_witness :
    (kafka_agent (fun _ => ExecBehavior.ok ("") none)
      (fun _ => Except.ok ("\x7b\"code\": \"topic_name = \x27a\x27\"\x7d")) ("p")
      (some ("z"))).2 =
      applyWrite (topicWriteEvent (fun _ => ExecBehavior.ok ("") none)
        (fun _ => Except.ok ("\x7b\"code\": \"topic_name = \x27a\x27\"\x7d")) (some ("z")))
        (some ("z")) ∧
    applyWrite (topicWriteEvent (fun _ => ExecBehavior.ok ("") none)
        (fun _ => Except.ok ("\x7b\"code\": \"topic_name = \x27b\x27\"\x7d")) none)
      (applyWrite (topicWriteEvent (fun _ => ExecBehavior.ok ("") none)
        (fun _ => Except.ok ("\x7b\"code\": \"topic_name = \x27a\x27\"\x7d")) (some ("z")))
        (some ("z"))) = some ("b") ∧
    applyWrite (topicWriteEvent (fun _ => ExecBehavior.ok ("") none)
        (fun _ => Except.ok ("\x7b\"code\": \"topic_name = \x27a\x27\"\x7d")) (some ("z")))
      (applyWrite (topicWriteEvent (fun _ => ExecBehavior.ok ("") none)
        (fun _ => Except.ok ("\x7b\"code\": \"topic_name = \x27b\x27\"\x7d")) none)
        (some ("z"))) = some ("a") :=
  ⟨claim_C9_last_writer_wins.1 _ _ _ _,
    (claim_C9_last_writer_wins.2 _ _ (some ("z")) _ _ none ("a") ("b") (some ("z"))
      (by rfl) (by rfl)).1,
    (claim_C9_last_writer_wins.2 _ _ (some ("z")) _ _ none ("a") ("b") (some ("z"))
      (by rfl) (by rfl)).2⟩

/-- Claim C10: every value the extraction regex returns is non-empty (its
capture group requires at least one character), the memory slot invariant
`absent or non-empty` is preserved by every request, and once the slot
holds a string no request resets it to absent. -/
theorem claim_C10_memory_invariant :
    (∀ (code : String) (t : String), extract_topic_from_code code = some t → t ≠ "") ∧
    (∀ (es : String → ExecBehavior) (complete : Option String → Except String String)
        (prompt : String) (mem : Option String),
      memInvB mem = true → memInvB (kafka_agent es complete prompt mem).2 = true) ∧
    (∀ (es : String → ExecBehavior) (complete : Option String → Except String String)
        (prompt : String) (mem : Option String) (s : String),
      mem = some s → ∃ s2, (kafka_agent es complete prompt mem).2 = some s2) := by
  refine ⟨fun code t h => searchTopic_nonempty h, ?_, ?_⟩
  · intro es complete prompt mem hinv
    rw [(kafka_agent_mem_spec es complete prompt mem).1]
    cases hev : topicWriteEvent es complete mem with
    | none => exact hinv
    | some t =>
      have ht : t ≠ "" := by
        unfold topicWriteEvent at hev
        rcases hc : complete mem with e | raw <;> rw [hc] at hev
        · cases hev
        · rcases hp : parseJson (clean_ai_response raw) with _ | ai <;>
            simp only [hp] at hev
          · cases hev
          · cases ai with
            | obj kvs =>
              dsimp only at hev
              by_cases hf : pyFalsy ((pyGet kvs ("code")).getD Json.null) = true
              · rw [if_pos hf] at hev
                cases hev
              · rw [if_neg hf] at hev
                cases hcj : (pyGet kvs ("code")).getD Json.null with
                | str code =>
                  rw [hcj] at hev
                  dsimp only at hev
                  cases hr : run_code_safely es code with
                  | error b =>
                    rw [hr] at hev
                    cases hev
                  | ok result =>
                    rw [hr] at hev
                    exact topicWrite_ne hev
                | null => rw [hcj] at hev; cases hev
                | bool b => rw [hcj] at hev; cases hev
                | num l => rw [hcj] at hev; cases hev
                | arr es2 => rw [hcj] at hev; cases hev
                | obj kvs2 => rw [hcj] at hev; cases hev
            | null => cases hev
            | bool b => cases hev
            | num l => cases hev
            | str s => cases hev
            | arr es2 => cases hev
      simp [applyWrite, memInvB, ht]
  · intro es complete prompt mem s hmem
    subst hmem
    rw [(kafka_agent_mem_spec es complete prompt (some s)).1]
    cases topicWriteEvent es complete (some s) with
    | none => exact ⟨s, rfl⟩
    | some t => exact ⟨t, rfl⟩

/-- Witness for C10: a request writing `orders`, an invariant-preserving
step from the empty slot, and a garbage completion leaving `kept` in
place. -/
theorem claim_C10_witness :
    (("orders") ≠ "") ∧
    memInvB (kafka_agent (fun _ => ExecBehavior.ok ("") none)
      (fun _ => Except.ok ("\x7b\"code\": \"topic_name = \x27orders\x27\"\x7d")) ("p") none).2 =
        true ∧
    (∃ s2, (kafka_agent (fun _ => ExecBehavior.ok ("") none)
      (fun _ => Except.ok ("nonsense")) ("p") (some ("kept"))).2 = some s2) :=
  ⟨claim_C10_memory_invariant.1 ("topic_name = \x27orders\x27") ("orders") (by rfl),
    claim_C10_memory_invariant.2.1 _ _ _ none (by rfl),
    claim_C10_memory_invariant.2.2 _ _ _ _ ("kept") rfl⟩

/-- Witness for C3: a request whose completion's code assigns
`topic_name = 'orders'`. -/
theorem claim_C3_witness :
    (∃ p, (kafka_agent (fun _ => ExecBehavior.ok ("") none)
        (fun _ => Except.ok ("\x7b\"code\": \"topic_name = \x27orders\x27\"\x7d"))
        ("q") none).1 = AgentOutcome.success p ∧ p.topic_in_use = some ("orders")) ∧
    (kafka_agent (fun _ => ExecBehavior.ok ("") none)
      (fun _ => Except.ok ("\x7b\"code\": \"topic_name = \x27orders\x27\"\x7d"))
      ("q") none).2 = some ("orders") ∧
    (∀ (es2 : String → ExecBehavior) (complete2 : Option String → Except String String)
        (prompt2 : String),
      kafka_agent es2 complete2 prompt2
        ((kafka_agent (fun _ => ExecBehavior.ok ("") none)
          (fun _ => Except.ok ("\x7b\"code\": \"topic_name = \x27orders\x27\"\x7d"))
          ("q") none).2) =
        kafka_agent es2 complete2 prompt2 (some ("orders"))) :=
  claim_C3_topic_memory _ _ _ _ _ _ _ _ rfl (by rfl) (by rfl) (by decide)
    (fun _ h => ExecBehavior.noConfusion h) (by rfl)

/-- Claim C4 counterexample: a completion that is itself fenced parses, but
wrapping it in another fence makes parsing fail; likewise a completion with
a leading vertical tab (stripped by `str.strip()` but not JSON whitespace)
parses unwrapped yet fails when wrapped. -/
theorem claim_C4_cex :
    (parse_completion ("```\n\x7b\"a\": 1\x7d\n```") =
      some (Json.obj [(("a"), Json.num ("1"))]) ∧
     parse_completion (wrapNoTag ("```\n\x7b\"a\": 1\x7d\n```")) = none) ∧
    (parse_completion ("\x0b\x7b\x7d") = some (Json.obj []) ∧
     parse_completion (wrapNoTag ("\x0b\x7b\x7d")) = none) :=
  ⟨⟨rfl, rfl⟩, ⟨rfl, rfl⟩⟩

/-- Witness for C4: the amended round-trip theorem applied to a plain JSON
object completion. -/
theorem claim_C4_witness :
    parse_completion (wrapJson ("\x7b\"code\": \"x = 1\"\x7d")) =
      some (Json.obj [(("code"), Json.str ("x = 1"))]) ∧
    parse_completion (wrapNoTag ("\x7b\"code\": \"x = 1\"\x7d")) =
      some (Json.obj [(("code"), Json.str ("x = 1"))]) :=
  claim_C4_round_trip _ _ (by decide) (by decide) (by rfl)
